import Mathlib

/-! Tools/my_utility.h: toroidal metric, direction sampler, tile exporter.

A shallow embedding of `src/Tools/my_utility.h`.

* Vectors (`VECTYPE`) are lists of scalars; `v.dim()` is the length and `v[i]` is
  indexing.
* Scalars range over an arbitrary linearly ordered field `α`, so every definition can
  be evaluated over `ℚ`; the theorems instantiate `α := ℝ`.
* The `<cmath>` functions the code calls (`sqrt` inside `norm`, `cos`, `sin`) are passed
  as arguments, and are instantiated with `Real.sqrt`, `Real.cos`, `Real.sin` in the
  theorems.
* Function-local `static` variables and the random engine are explicit state.
* Each numeric function is read twice. The definitions named as in the source read the
  code in exact arithmetic: no operation is rounded. The definitions with the suffix
  `_fl` read the same lines with the rounding of the types of the source (`double`
  operations, the `float` quotient of line 102, the `float` return of `toroidal_norm`)
  as explicit functions; with the identity for the roundings they are the exact
  definitions (`toroidal_norm_fl_exact` and its siblings). The `_fl` definitions, with
  the IEEE 754 roundings `binary64` and `binary32`, decide what the code returns at a
  concrete input.
-/

namespace SlicedOptim

variable {α : Type} [LinearOrderedField α]

/-! ## The vector type -/

/-- Modelled from the spec: `VecX::norm` of `Math/VecX.h`, which is not among the sources.
The Euclidean norm `sqrt (Σ v[i]^2)`; the square-root function is an argument. -/
def VecX.norm (sqrt : α → α) (v : List α) : α :=
  sqrt ((v.map fun x => x ^ 2).sum)

/-- Modelled from the spec: `VecX::normalize` of `Math/VecX.h`, which is not among the
sources. It divides every component of the vector by the vector's Euclidean norm. -/
def VecX.normalize (sqrt : α → α) (v : List α) : List α :=
  v.map fun x => x / VecX.norm sqrt v

/-! ## Toroidal metric (`toroidal_minus`, `toroidal_norm`) -/

/-- Body of the loop of `toroidal_minus` for one axis, `a = v1[i]`, `b = v2[i]`:
the assignment to `res[i]` followed by the two independent `if` statements. Exact
arithmetic; `toroidal_minus_axis_fl` is the same body with `double` operations. -/
def toroidal_minus_axis (a b : α) : α :=
  let res := a - b
  let res := if 1 > (a - b + 1) ∧ 0 ≤ (a - b + 1) then a - b + 1 else res
  let res := if 1 > (a - b - 1) ∧ 0 ≤ (a - b - 1) then a - b - 1 else res
  res

/-- The function `toroidal_minus(v1, v2)`: a result vector of dimension `v1.dim()` whose
component `i` is computed from `v1[i]` and `v2[i]`. -/
def toroidal_minus (v1 v2 : List α) : List α :=
  (List.range v1.length).map fun i => toroidal_minus_axis (v1.getD i 0) (v2.getD i 0)

/-- Body of the loop of `toroidal_norm` for one axis, `a = v1[i]`, `b = v2[i]`:
`res[i]` is assigned the raw difference, then compared by squared magnitude with
`raw + 1`, and the survivor with `raw - 1`. -/
def toroidal_norm_axis (a b : α) : α :=
  let res := a - b
  let res := if res ^ 2 > (a - b + 1) ^ 2 then a - b + 1 else res
  let res := if res ^ 2 > (a - b - 1) ^ 2 then a - b - 1 else res
  res

/-- The vector `res` that `toroidal_norm` holds when its loop ends. -/
def toroidal_norm_res (v1 v2 : List α) : List α :=
  (List.range v1.length).map fun i => toroidal_norm_axis (v1.getD i 0) (v2.getD i 0)

/-- The function `toroidal_norm(v1, v2)`: `res.norm()` of the vector built by the loop
(the conversion of the returned value to `float` changes nothing in exact arithmetic;
`toroidal_norm_fl` is the same function with `double` operations and the `float`
return). -/
def toroidal_norm (sqrt : α → α) (v1 v2 : List α) : α :=
  VecX.norm sqrt (toroidal_norm_res v1 v2)

/-- A point of the periodic unit domain `[0,1)^d`. -/
def InUnitCube (v : List α) : Prop := ∀ x ∈ v, 0 ≤ x ∧ x < 1

instance (v : List α) : Decidable (InUnitCube v) := by
  unfold InUnitCube; infer_instance

/-! ## Direction sampler (`chooseDirectionsND`) -/

/-- The constant `PI` of the source, as written there. -/
def PI : α := 3.141592653589793238463

/-- The random source of `chooseDirectionsND`, over an abstract engine state `σ`:
`init seed` is the construction `std::mt19937 generatorND(seed)` (together with the two
default-constructed distributions), `unif` is one call `unif(generatorND)` and
`normalND` one call `normalND(generatorND)`; each call returns the draw and the next
state. -/
structure Engine (σ α : Type) where
  init : Int → σ
  unif : σ → α × σ
  normalND : σ → α × σ

variable {σ : Type}

/-- The inner loop `for (j = 0; j < dim; ++j) directions[k][j] = normalND(generatorND)`:
the vector and the engine state after the first `n` iterations. -/
def fillNormal (E : Engine σ α) (v : List α) (s : σ) : Nat → List α × σ
  | 0 => (v, s)
  | j + 1 =>
    let p := fillNormal E v s j
    let x := E.normalND p.2
    (p.1.set j x.1, x.2)

/-- Body of the loop over `k`, up to but not including `directions[k].normalize()`:
`v` is `directions[k]` on entry and the first component returned is `directions[k]`
just before it is normalised. Exact arithmetic: `float(k)/m` is the exact quotient and
the constants are the decimals of the source; `chooseDirection_fl` is the same body with
the types of the source. -/
def chooseDirection (E : Engine σ α) (cos sin : α → α) (dim m k : Nat) (v : List α) (s : σ) :
    List α × σ :=
  if dim = 2 then
    let r := E.unif s
    let rnd := r.1
    if rnd < 0.7 then
      let u := E.unif r.2
      let theta := ((k : α) / (m : α) + u.1 / (m : α)) * 2 * PI
      ((v.set 0 (cos theta)).set 1 (sin theta), u.2)
    else if rnd < 0.85 then
      ((v.set 0 1.0).set 1 0.0, r.2)
    else
      ((v.set 0 0.0).set 1 1.0, r.2)
  else
    fillNormal E v s dim

/-- The loop `for (k = 0; k < m; ++k)` of `chooseDirectionsND`: the table of directions
and the engine state after the first `n` iterations. -/
def chooseDirectionsLoop (E : Engine σ α) (sqrt cos sin : α → α) (dim m : Nat)
    (directions : List (List α)) (s : σ) : Nat → List (List α) × σ
  | 0 => (directions, s)
  | k + 1 =>
    let p := chooseDirectionsLoop E sqrt cos sin dim m directions s k
    let q := chooseDirection E cos sin dim m k (p.1.getD k []) p.2
    (p.1.set k (VecX.normalize sqrt q.1), q.2)

/-- The engine a call of `chooseDirectionsND` draws from: the function-local static
`generatorND` is constructed from `seed` when control first passes its declaration
(`none`: not constructed yet) and is left as it is on every later call. -/
def engineAtEntry (E : Engine σ α) (generatorND : Option σ) (seed : Int) : σ :=
  match generatorND with
  | none => E.init seed
  | some s => s

/-- The function `chooseDirectionsND(directions, m, seed)`. The function-local static
engine is the explicit state `generatorND`: `none` before the first call, `some s`
afterwards. Returns the table of directions and the static state after the call. A
count `m <= 0` runs no iteration, like `m = 0` here. -/
def chooseDirectionsND (E : Engine σ α) (sqrt cos sin : α → α) (generatorND : Option σ)
    (directions : List (List α)) (m : Nat) (seed : Int) : List (List α) × Option σ :=
  let s := engineAtEntry E generatorND seed
  let dim := (directions.headD []).length
  let p := chooseDirectionsLoop E sqrt cos sin dim m directions s m
  (p.1, some p.2)

/-- The engine state with which iteration `k` of the loop of a call of
`chooseDirectionsND` starts (the state the first draw made for index `k` is taken from). -/
def engineBefore (E : Engine σ α) (sqrt cos sin : α → α) (generatorND : Option σ)
    (directions : List (List α)) (m : Nat) (seed : Int) (k : Nat) : σ :=
  (chooseDirectionsLoop E sqrt cos sin (directions.headD []).length m directions
    (engineAtEntry E generatorND seed) k).2

/-! ## Tile exporter (`export_sampler`) and the accessor it emits -/

/-- The values written between the braces of row `i` of a frame: the loops over the
column `j`, the sample `k` and the component `d`, reading
`points[(i*tile_size+j)*spp+k][d]`. -/
def export_row (points : List (List α)) (tile_size spp dim i : Nat) : List α :=
  (List.range tile_size).flatMap fun j =>
    (List.range spp).flatMap fun k =>
      (List.range dim).map fun d => (points.getD ((i * tile_size + j) * spp + k) []).getD d 0

/-- The array literal `tile` written by `export_sampler`, as nested lists of values:
the loops over the frame `f` and the row `i` around `export_row`. -/
def export_tile (points : List (List α)) (tile_size spp nb_frames : Nat) : List (List (List α)) :=
  let dim := (points.headD []).length
  (List.range nb_frames).map fun _ =>
    (List.range tile_size).map fun i => export_row points tile_size spp dim i

/-- The operator `%` of C on `int`: the remainder of the division that truncates toward
zero, so the result has the sign of the dividend. -/
def cmod (a b : Int) : Int := Int.tmod a b

/-- The three subscripts of `tile` in the emitted function `sample(f, i, j, s, d)`:
`tile[f%nb_frames][i%tile_size][(j%tile_size)*spp*dim+(s%spp)*dim+(d%dim)]`. -/
def sample_subscripts (nb_frames tile_size spp dim f i j s d : Int) : Int × Int × Int :=
  (cmod f nb_frames, cmod i tile_size,
    cmod j tile_size * spp * dim + cmod s spp * dim + cmod d dim)

/-- Reading `a[n]` from an array held as a list: defined only for `0 ≤ n < length`. -/
def arrayRead {β : Type} (a : List β) (n : Int) : Option β :=
  if 0 ≤ n then a[n.toNat]? else none

/-- The emitted function `sample(f, i, j, s, d)` reading the array `tile`; `none` when a
subscript is outside its extent. -/
def sample {β : Type} (tile : List (List (List β)))
    (nb_frames tile_size spp dim f i j s d : Int) : Option β :=
  let ix := sample_subscripts nb_frames tile_size spp dim f i j s d
  ((arrayRead tile ix.1).bind fun frame => arrayRead frame ix.2.1).bind fun row =>
    arrayRead row ix.2.2

/-! ## Volume sampler (`randomVectorInBall`) -/

/-- Modelled from the spec: `VecX::operator*=` with a scalar, of `Math/VecX.h`, which is
not among the sources. It multiplies every component of the vector by the scalar. -/
def VecX.scale (c : α) (v : List α) : List α :=
  v.map fun x => x * c

/-- The function `randomVectorInBall(dim, engine)`: `s` is the state of `engine` on entry.
The vector `v(dim)` is filled with `dim` normal draws (the same loop as `fillNormal`; what
`v` holds before is overwritten), normalised, and multiplied by
`std::pow(unif(engine), 1. / dim)`; `pow` is an argument like `sqrt`. Returns the vector
and the state of the engine after the call. -/
def randomVectorInBall (E : Engine σ α) (sqrt : α → α) (pow : α → α → α) (dim : Nat) (s : σ) :
    List α × σ :=
  let p := fillNormal E (List.replicate dim 0) s dim
  let v := VecX.normalize sqrt p.1
  let u := E.unif p.2
  (VecX.scale (pow u.1 (1 / (dim : α))) v, u.2)

/-! ## Angular bins -/

/-- The angle `x` lies in bin `k` of the `m` equal bins of `[0, 2*PI)`:
`2*PI*k/m ≤ x < 2*PI*(k+1)/m`. -/
def InAngularBin (m k : Nat) (x : α) : Prop :=
  2 * PI * (k : α) / (m : α) ≤ x ∧ x < 2 * PI * ((k : α) + 1) / (m : α)

instance (m k : Nat) (x : α) : Decidable (InAngularBin m k x) := by
  unfold InAngularBin; infer_instance

/-! ## Floating-point reading

The definitions above read the code in exact arithmetic. The definitions below read the
same lines with the rounding of the C++ types made explicit: `d` rounds a value to
`double`, `f` to `float`; every arithmetic operation of the source returns the rounding
of its exact result. With `d = f = id` they are the exact definitions again. -/

/-- The integer nearest to `x`; for `x` halfway between two integers, the even one. -/
def roundHalfEven [FloorRing α] (x : α) : Int :=
  if x - (⌊x⌋ : α) < 1 / 2 then ⌊x⌋
  else if 1 / 2 < x - (⌊x⌋ : α) then ⌊x⌋ + 1
  else if ⌊x⌋ % 2 = 0 then ⌊x⌋
  else ⌊x⌋ + 1

/-- Rounding to nearest, ties to even, in the IEEE 754 binary format with `p` significand
bits and least normal exponent `emin` (subnormals included, overflow not modelled): the
nearest multiple of the unit in the last place of `x`. -/
def roundBinary [FloorRing α] (p : Nat) (emin : Int) (x : α) : α :=
  let e := max (Int.log 2 |x|) emin
  let ulp : α := (2 : α) ^ (e - ((p : Int) - 1))
  (roundHalfEven (x / ulp) : α) * ulp

/-- Rounding to `double` (IEEE 754 binary64). -/
def binary64 [FloorRing α] (x : α) : α := roundBinary 53 (-1022) x

/-- Rounding to `float` (IEEE 754 binary32). -/
def binary32 [FloorRing α] (x : α) : α := roundBinary 24 (-126) x

/-- Body of the loop of `toroidal_minus` for one axis with `double` operations: each
occurrence of `v1[i] - v2[i] + 1` is the rounded sum of the rounded difference and 1. -/
def toroidal_minus_axis_fl (d : α → α) (a b : α) : α :=
  let res := d (a - b)
  let res := if 1 > d (d (a - b) + 1) ∧ 0 ≤ d (d (a - b) + 1) then d (d (a - b) + 1) else res
  let res := if 1 > d (d (a - b) - 1) ∧ 0 ≤ d (d (a - b) - 1) then d (d (a - b) - 1) else res
  res

/-- The function `toroidal_minus(v1, v2)` with `double` operations. -/
def toroidal_minus_fl (d : α → α) (v1 v2 : List α) : List α :=
  (List.range v1.length).map fun i => toroidal_minus_axis_fl d (v1.getD i 0) (v2.getD i 0)

/-- Body of the loop of `toroidal_norm` for one axis with `double` operations;
`std::pow(x, 2)` returns the rounded square. -/
def toroidal_norm_axis_fl (d : α → α) (a b : α) : α :=
  let res := d (a - b)
  let res := if d (res ^ 2) > d (d (d (a - b) + 1) ^ 2) then d (d (a - b) + 1) else res
  let res := if d (res ^ 2) > d (d (d (a - b) - 1) ^ 2) then d (d (a - b) - 1) else res
  res

/-- The vector `res` that `toroidal_norm` holds when its loop ends, with `double`
operations. -/
def toroidal_norm_res_fl (d : α → α) (v1 v2 : List α) : List α :=
  (List.range v1.length).map fun i => toroidal_norm_axis_fl d (v1.getD i 0) (v2.getD i 0)

/-- Modelled from the spec: `VecX::norm` of `Math/VecX.h`, which is not among the sources,
with `double` operations: the squares are accumulated from the first component on, and
the square root of the sum is taken. -/
def VecX.norm_fl (d sqrt : α → α) (v : List α) : α :=
  d (sqrt (v.foldl (fun acc x => d (acc + d (x * x))) 0))

/-- The function `toroidal_norm(v1, v2)` with `double` operations and the conversion of
`res.norm()` to the return type `float`. -/
def toroidal_norm_fl (d f sqrt : α → α) (v1 v2 : List α) : α :=
  f (VecX.norm_fl d sqrt (toroidal_norm_res_fl d v1 v2))

/-- The angle `theta` of the stratified branch of `chooseDirectionsND`,
`(float(k)/m + unif(generatorND)/float(m))*2*PI`, with the types of the source: `k` and
`m` are converted to `float` and divided in `float`; the draw `u` is divided by
`float(m)` in `double`; the sum, the product by 2 and the product by the `double`
constant `PI` are `double` operations. -/
def stratified_theta_fl (d f : α → α) (m k : Nat) (u : α) : α :=
  d (d (d (f (f (k : α) / f (m : α)) + d (u / f (m : α))) * 2) * d PI)

/-- Body of the loop over `k` of `chooseDirectionsND`, up to but not including
`directions[k].normalize()`, with the types of the source: the thresholds are the
`double` constants nearest to `0.7` and `0.85`, the angle is `stratified_theta_fl`;
`cos` and `sin` are the `<cmath>` functions. -/
def chooseDirection_fl (d f : α → α) (E : Engine σ α) (cos sin : α → α) (dim m k : Nat)
    (v : List α) (s : σ) : List α × σ :=
  if dim = 2 then
    let r := E.unif s
    let rnd := r.1
    if rnd < d 0.7 then
      let u := E.unif r.2
      let theta := stratified_theta_fl d f m k u.1
      ((v.set 0 (cos theta)).set 1 (sin theta), u.2)
    else if rnd < d 0.85 then
      ((v.set 0 1.0).set 1 0.0, r.2)
    else
      ((v.set 0 0.0).set 1 1.0, r.2)
  else
    fillNormal E v s dim

/-- The loop `for (k = 0; k < m; ++k)` of `chooseDirectionsND` with the types of the
source in the body; `normalize` stands for `VecX::normalize`, which is not among the
sources. The table of directions and the engine state after the first `n` iterations. -/
def chooseDirectionsLoop_fl (d f : α → α) (normalize : List α → List α) (E : Engine σ α)
    (cos sin : α → α) (dim m : Nat) (directions : List (List α)) (s : σ) :
    Nat → List (List α) × σ
  | 0 => (directions, s)
  | k + 1 =>
    let p := chooseDirectionsLoop_fl d f normalize E cos sin dim m directions s k
    let q := chooseDirection_fl d f E cos sin dim m k (p.1.getD k []) p.2
    (p.1.set k (normalize q.1), q.2)

/-- The function `chooseDirectionsND(directions, m, seed)` with the types of the source
in the loop body. -/
def chooseDirectionsND_fl (d f : α → α) (normalize : List α → List α) (E : Engine σ α)
    (cos sin : α → α) (generatorND : Option σ) (directions : List (List α)) (m : Nat)
    (seed : Int) : List (List α) × Option σ :=
  let s := engineAtEntry E generatorND seed
  let dim := (directions.headD []).length
  let p := chooseDirectionsLoop_fl d f normalize E cos sin dim m directions s m
  (p.1, some p.2)

/-! ## Sample data -/

/-- A table of 32 two-dimensional points, enough for `tile_size = 4`, `spp = 2`. -/
def examplePoints : List (List ℚ) :=
  (List.range 32).map fun n => [(n : ℚ) / 32, (n : ℚ) / 64]

/-- A random source that replays fixed draws: the state counts the calls made, `u n` is
the uniform draw and `g n` the normal draw made in state `n`. -/
def exampleEngine (u g : Nat → α) : Engine Nat α where
  init := fun _ => 0
  unif := fun n => (u n, n + 1)
  normalND := fun n => (g n, n + 1)

/-! ## Theorems: toroidal metric -/

section Toroidal

theorem toroidal_minus_length (v1 v2 : List α) : (toroidal_minus v1 v2).length = v1.length := by
  simp [toroidal_minus]

theorem toroidal_norm_res_length (v1 v2 : List α) :
    (toroidal_norm_res v1 v2).length = v1.length := by
  simp [toroidal_norm_res]

theorem lt_length_of_getElem? {β : Type} {l : List β} {i : Nat} {a : β} (h : l[i]? = some a) :
    i < l.length := by
  by_contra hc
  rw [List.getElem?_eq_none (not_lt.mp hc)] at h
  exact Option.noConfusion h

/-- Component `i` of `toroidal_minus v1 v2` is the loop body run on `v1[i]`, `v2[i]`. -/
theorem toroidal_minus_getElem? (v1 v2 : List α) (i : Nat) (a b : α)
    (h1 : v1[i]? = some a) (h2 : v2[i]? = some b) :
    (toroidal_minus v1 v2)[i]? = some (toroidal_minus_axis a b) := by
  have hi := lt_length_of_getElem? h1
  simp [toroidal_minus, List.getElem?_range hi, h1, h2]

/-- Component `i` of the vector kept by `toroidal_norm` is the loop body run on `v1[i]`,
`v2[i]`. -/
theorem toroidal_norm_res_getElem? (v1 v2 : List α) (i : Nat) (a b : α)
    (h1 : v1[i]? = some a) (h2 : v2[i]? = some b) :
    (toroidal_norm_res v1 v2)[i]? = some (toroidal_norm_axis a b) := by
  have hi := lt_length_of_getElem? h1
  simp [toroidal_norm_res, List.getElem?_range hi, h1, h2]

/-- The two `if` statements of `toroidal_minus` are exclusive, so the body is the
if / else-if / otherwise rule. -/
theorem toroidal_minus_axis_rule (a b : α) :
    toroidal_minus_axis a b =
      if 0 ≤ a - b + 1 ∧ a - b + 1 < 1 then a - b + 1
      else if 0 ≤ a - b - 1 ∧ a - b - 1 < 1 then a - b - 1
      else a - b := by
  simp only [toroidal_minus_axis]
  by_cases h1 : 0 ≤ a - b + 1 ∧ a - b + 1 < 1
  · have h2 : ¬ (1 > a - b - 1 ∧ 0 ≤ a - b - 1) := by
      rintro ⟨-, h⟩
      linarith [h1.2]
    rw [if_neg h2, if_pos (⟨h1.2, h1.1⟩ : 1 > a - b + 1 ∧ 0 ≤ a - b + 1), if_pos h1]
  · have h1b : ¬ (1 > a - b + 1 ∧ 0 ≤ a - b + 1) := fun h => h1 ⟨h.2, h.1⟩
    rw [if_neg h1b, if_neg h1]
    by_cases h2 : 0 ≤ a - b - 1 ∧ a - b - 1 < 1
    · rw [if_pos h2, if_pos (⟨h2.2, h2.1⟩ : 1 > a - b - 1 ∧ 0 ≤ a - b - 1)]
    · have h2b : ¬ (1 > a - b - 1 ∧ 0 ≤ a - b - 1) := fun h => h2 ⟨h.2, h.1⟩
      rw [if_neg h2, if_neg h2b]

/-- The component kept by `toroidal_norm` is one of the three candidates and no
candidate has a smaller square. -/
theorem toroidal_norm_axis_spec (a b : α) :
    (toroidal_norm_axis a b = a - b ∨ toroidal_norm_axis a b = a - b + 1 ∨
        toroidal_norm_axis a b = a - b - 1) ∧
      toroidal_norm_axis a b ^ 2 ≤ (a - b) ^ 2 ∧
      toroidal_norm_axis a b ^ 2 ≤ (a - b + 1) ^ 2 ∧
      toroidal_norm_axis a b ^ 2 ≤ (a - b - 1) ^ 2 := by
  simp only [toroidal_norm_axis]
  by_cases h1 : (a - b) ^ 2 > (a - b + 1) ^ 2
  · rw [if_pos h1]
    by_cases h2 : (a - b + 1) ^ 2 > (a - b - 1) ^ 2
    · rw [if_pos h2]
      exact ⟨Or.inr (Or.inr rfl), by linarith, by linarith, le_refl _⟩
    · rw [if_neg h2]
      exact ⟨Or.inr (Or.inl rfl), by linarith, le_refl _, by linarith⟩
  · rw [if_neg h1]
    by_cases h2 : (a - b) ^ 2 > (a - b - 1) ^ 2
    · rw [if_pos h2]
      exact ⟨Or.inr (Or.inr rfl), by linarith, by linarith, le_refl _⟩
    · rw [if_neg h2]
      exact ⟨Or.inl rfl, le_refl _, by linarith, by linarith⟩

/-- C1. `toroidal_norm` is the minimum-image distance: for real vectors of equal
dimension, the vector it keeps has that dimension; on every axis `i`, with
`raw = v1[i] - v2[i]`, the component `c` kept is one of `raw`, `raw + 1`, `raw - 1` and
`c^2` is at most the square of each of the three; and the value returned is the
Euclidean norm `sqrt (Σ c_i^2)` of the kept vector. -/
theorem toroidal_norm_minimum_image (v1 v2 : List ℝ) (hd : v1.length = v2.length) :
    (toroidal_norm_res v1 v2).length = v2.length ∧
      (∀ (i : Nat) (a b : ℝ), v1[i]? = some a → v2[i]? = some b →
        ∃ c : ℝ, (toroidal_norm_res v1 v2)[i]? = some c ∧
          (c = a - b ∨ c = a - b + 1 ∨ c = a - b - 1) ∧
          c ^ 2 ≤ (a - b) ^ 2 ∧ c ^ 2 ≤ (a - b + 1) ^ 2 ∧ c ^ 2 ≤ (a - b - 1) ^ 2) ∧
      toroidal_norm Real.sqrt v1 v2 =
        Real.sqrt ((toroidal_norm_res v1 v2).map fun c => c ^ 2).sum := by
  refine ⟨by rw [toroidal_norm_res_length, hd], fun i a b h1 h2 => ?_, rfl⟩
  exact ⟨toroidal_norm_axis a b, toroidal_norm_res_getElem? v1 v2 i a b h1 h2,
    toroidal_norm_axis_spec a b⟩

/-- C1, at `v1 = [0, 0]`, `v2 = [3/5, 1/5]`: the kept vector is `[2/5, -1/5]` (the
candidates are `-3/5, 2/5, -8/5` and `-1/5, 4/5, -6/5`) and the distance is
`sqrt (4/25 + 1/25)`. -/
theorem toroidal_norm_minimum_image_witness :
    toroidal_norm_res [(0 : ℝ), 0] [3 / 5, 1 / 5] = [2 / 5, -1 / 5] ∧
      toroidal_norm Real.sqrt [(0 : ℝ), 0] [3 / 5, 1 / 5] = Real.sqrt (1 / 5) := by
  have h := toroidal_norm_minimum_image [(0 : ℝ), 0] [3 / 5, 1 / 5] rfl
  have hres : toroidal_norm_res [(0 : ℝ), 0] [3 / 5, 1 / 5] = [2 / 5, -1 / 5] := by
    norm_num [toroidal_norm_res, toroidal_norm_axis, List.range_succ]
  refine ⟨hres, ?_⟩
  rw [h.2.2, hres]
  norm_num

theorem norm_singleton (x : ℝ) : VecX.norm Real.sqrt [x] = |x| := by
  simp [VecX.norm, Real.sqrt_sq_eq_abs]

theorem toroidal_minus_singleton (a b : α) :
    toroidal_minus [a] [b] = [toroidal_minus_axis a b] := by
  simp [toroidal_minus, List.range_succ]

theorem toroidal_norm_singleton (a b : ℝ) :
    toroidal_norm Real.sqrt [a] [b] = |toroidal_norm_axis a b| := by
  have h : toroidal_norm_res [a] [b] = [toroidal_norm_axis a b] := by
    simp [toroidal_norm_res, List.range_succ]
  rw [toroidal_norm, h, norm_singleton]

/-- C6, amended. In exact real arithmetic (no operation and no returned value is
rounded), difference and distance agree on the class of the spec's example: for 1-D points
`[a]`, `[b]` with `raw = a - b` in `[-1, -1/2]`, `toroidal_minus` returns `[raw + 1]` and
`toroidal_norm` returns `raw + 1`. -/
theorem toroidal_minus_norm_agree_on_wrap (a b : ℝ) (hlo : -1 ≤ a - b) (hhi : a - b ≤ -1 / 2) :
    toroidal_minus [a] [b] = [a - b + 1] ∧ toroidal_norm Real.sqrt [a] [b] = a - b + 1 := by
  constructor
  · rw [toroidal_minus_singleton, toroidal_minus_axis_rule,
      if_pos (⟨by linarith, by linarith⟩ : 0 ≤ a - b + 1 ∧ a - b + 1 < 1)]
  · rw [toroidal_norm_singleton]
    simp only [toroidal_norm_axis]
    by_cases h1 : (a - b) ^ 2 > (a - b + 1) ^ 2
    · have h2 : ¬ (a - b + 1) ^ 2 > (a - b - 1) ^ 2 := by
        intro h; nlinarith
      rw [if_pos h1, if_neg h2, abs_of_nonneg (by linarith)]
    · have h2 : ¬ (a - b) ^ 2 > (a - b - 1) ^ 2 := by
        intro h; nlinarith
      have h3 : a - b = -1 / 2 := by
        have : -1 / 2 ≤ a - b := by nlinarith
        linarith
      rw [if_neg h1, if_neg h2, h3]
      norm_num [abs_of_neg]

/-- C6 amended, at the spec's example `v1 = [1/10]`, `v2 = [19/20]` (`raw = -17/20`): the
difference is `[3/20]` and the distance is `3/20`. -/
theorem toroidal_minus_norm_agree_on_wrap_witness :
    toroidal_minus [(1 / 10 : ℝ)] [19 / 20] = [3 / 20] ∧
      toroidal_norm Real.sqrt [(1 / 10 : ℝ)] [19 / 20] = 3 / 20 := by
  have h := toroidal_minus_norm_agree_on_wrap (1 / 10) (19 / 20) (by norm_num) (by norm_num)
  have e : (1 / 10 : ℝ) - 19 / 20 + 1 = 3 / 20 := by norm_num
  rw [e] at h
  exact h

/-- C7, refuted as stated: `v1 = [0]` and `v2 = [1/10]` are points of `[0,1)^1`, the raw
difference is `-1/10`, and `toroidal_minus` returns the component `9/10`, whose absolute
value is larger than that of the candidate `raw = -1/10`. -/
theorem toroidal_minus_not_shortest :
    InUnitCube [(0 : ℝ)] ∧ InUnitCube [(1 / 10 : ℝ)] ∧
      (toroidal_minus [(0 : ℝ)] [1 / 10])[0]? = some (9 / 10) ∧
      ¬ (|(9 / 10 : ℝ)| ≤ |(0 : ℝ) - 1 / 10|) := by
  refine ⟨?_, ?_, ?_, ?_⟩
  · intro x hx
    simp only [List.mem_singleton] at hx
    subst hx; norm_num
  · intro x hx
    simp only [List.mem_singleton] at hx
    subst hx; norm_num
  · rw [toroidal_minus_singleton, toroidal_minus_axis_rule]
    norm_num
  · rw [abs_of_nonneg (by norm_num : (0 : ℝ) ≤ 9 / 10),
      abs_of_neg (by norm_num : (0 : ℝ) - 1 / 10 < 0)]
    norm_num

/-- C7, amended. In exact real arithmetic (no operation is rounded), for points `v1`,
`v2` of `[0,1)^d` and every axis `i`, with
`raw = v1[i] - v2[i]`, the component `c` returned by `toroidal_minus` is the
representative of `raw` modulo 1 in `[0, 1)` (`raw + 1` for negative `raw`, else `raw`);
it has the smallest absolute value among `raw`, `raw + 1`, `raw - 1` exactly when
`c ≤ 1/2`. -/
theorem toroidal_minus_unit_interval_representative (v1 v2 : List ℝ)
    (hd : v1.length = v2.length) (h1 : InUnitCube v1) (h2 : InUnitCube v2)
    (i : Nat) (a b : ℝ) (ha : v1[i]? = some a) (hb : v2[i]? = some b) :
    (toroidal_minus v1 v2).length = v2.length ∧
    ∃ c : ℝ, (toroidal_minus v1 v2)[i]? = some c ∧
      c = (if a - b < 0 then a - b + 1 else a - b) ∧ 0 ≤ c ∧ c < 1 ∧
      ((|c| ≤ |a - b| ∧ |c| ≤ |a - b + 1| ∧ |c| ≤ |a - b - 1|) ↔ c ≤ 1 / 2) := by
  obtain ⟨ha0, ha1⟩ := h1 a (List.getElem?_mem ha)
  obtain ⟨hb0, hb1⟩ := h2 b (List.getElem?_mem hb)
  refine ⟨by rw [toroidal_minus_length, hd], toroidal_minus_axis a b,
    toroidal_minus_getElem? v1 v2 i a b ha hb, ?_⟩
  rw [toroidal_minus_axis_rule]
  by_cases hneg : a - b < 0
  · rw [if_pos (⟨by linarith, by linarith⟩ : 0 ≤ a - b + 1 ∧ a - b + 1 < 1), if_pos hneg]
    refine ⟨rfl, by linarith, by linarith, ?_⟩
    rw [abs_of_nonneg (by linarith : 0 ≤ a - b + 1), abs_of_neg hneg,
      abs_of_neg (by linarith : a - b - 1 < 0)]
    constructor
    · rintro ⟨h, -, -⟩; linarith
    · intro h; exact ⟨by linarith, le_refl _, by linarith⟩
  · have hn1 : ¬ (0 ≤ a - b + 1 ∧ a - b + 1 < 1) := fun h => hneg (by linarith [h.2])
    have hn2 : ¬ (0 ≤ a - b - 1 ∧ a - b - 1 < 1) := fun h => by linarith [h.1]
    rw [if_neg hn1, if_neg hn2, if_neg hneg]
    refine ⟨rfl, by linarith, by linarith, ?_⟩
    rw [abs_of_nonneg (by linarith : 0 ≤ a - b), abs_of_nonneg (by linarith : 0 ≤ a - b + 1),
      abs_of_neg (by linarith : a - b - 1 < 0)]
    constructor
    · rintro ⟨-, -, h⟩; linarith
    · intro h; exact ⟨le_refl _, by linarith, by linarith⟩

/-- C7 amended, at `v1 = [0]`, `v2 = [1/10]`: the component returned is `9/10`, in
`[0, 1)`, and it is not the shortest representative since `9/10 > 1/2`. -/
theorem toroidal_minus_unit_interval_representative_witness :
    ∃ c : ℝ, (toroidal_minus [(0 : ℝ)] [1 / 10])[0]? = some c ∧
      c = (if (0 : ℝ) - 1 / 10 < 0 then (0 : ℝ) - 1 / 10 + 1 else 0 - 1 / 10) ∧ 0 ≤ c ∧ c < 1 ∧
      ((|c| ≤ |(0 : ℝ) - 1 / 10| ∧ |c| ≤ |(0 : ℝ) - 1 / 10 + 1| ∧ |c| ≤ |(0 : ℝ) - 1 / 10 - 1|) ↔
        c ≤ 1 / 2) :=
  (toroidal_minus_unit_interval_representative [0] [1 / 10] rfl
    (by intro x hx; simp only [List.mem_singleton] at hx; subst hx; norm_num)
    (by intro x hx; simp only [List.mem_singleton] at hx; subst hx; norm_num)
    0 0 (1 / 10) rfl rfl).2

/-- C10. Difference and distance are distinct behaviours: there are points `v1`, `v2` of
`[0,1)^1` (namely `[0]` and `[1/10]`) for which the Euclidean norm of
`toroidal_minus v1 v2` (here `9/10`) differs from `toroidal_norm v1 v2` (here `1/10`). -/
theorem toroidal_minus_norm_distinct :
    ∃ v1 v2 : List ℝ, v1.length = 1 ∧ v2.length = 1 ∧ InUnitCube v1 ∧ InUnitCube v2 ∧
      VecX.norm Real.sqrt (toroidal_minus v1 v2) ≠ toroidal_norm Real.sqrt v1 v2 := by
  refine ⟨[0], [1 / 10], rfl, rfl, ?_, ?_, ?_⟩
  · intro x hx
    simp only [List.mem_singleton] at hx
    subst hx; norm_num
  · intro x hx
    simp only [List.mem_singleton] at hx
    subst hx; norm_num
  · have e1 : toroidal_minus_axis (0 : ℝ) (1 / 10) = 9 / 10 := by
      rw [toroidal_minus_axis_rule]; norm_num
    have e2 : toroidal_norm_axis (0 : ℝ) (1 / 10) = -1 / 10 := by
      norm_num [toroidal_norm_axis]
    rw [toroidal_minus_singleton, norm_singleton, toroidal_norm_singleton, e1, e2,
      abs_of_nonneg (by norm_num : (0 : ℝ) ≤ 9 / 10),
      abs_of_neg (by norm_num : (-1 / 10 : ℝ) < 0)]
    norm_num

/-! ### The toroidal distance on the periodic unit domain -/

theorem getD_mem_unit {v : List α} (h : InUnitCube v) {i : Nat} (hi : i < v.length) :
    0 ≤ v.getD i 0 ∧ v.getD i 0 < 1 := by
  have e : v.getD i 0 = v[i] := by
    rw [List.getD_eq_getElem?_getD, List.getElem?_eq_getElem hi]
    rfl
  rw [e]
  exact h _ (List.getElem_mem hi)

theorem getD_of_getElem? {v : List α} {i : Nat} {a : α} (h : v[i]? = some a) :
    v.getD i 0 = a := by
  rw [List.getD_eq_getElem?_getD, h]
  rfl

/-- The component kept by `toroidal_norm` is no larger in absolute value than any of the
three candidates. -/
theorem toroidal_norm_axis_abs_le (a b : α) :
    |toroidal_norm_axis a b| ≤ |a - b| ∧ |toroidal_norm_axis a b| ≤ |a - b + 1| ∧
      |toroidal_norm_axis a b| ≤ |a - b - 1| := by
  obtain ⟨-, h0, h1, h2⟩ := toroidal_norm_axis_spec a b
  exact ⟨sq_le_sq.mp h0, sq_le_sq.mp h1, sq_le_sq.mp h2⟩

/-- On `[0,1)` the component kept by `toroidal_norm` is at most `1/2` in absolute value. -/
theorem toroidal_norm_axis_abs_le_half (a b : α) (ha0 : 0 ≤ a) (ha1 : a < 1) (hb0 : 0 ≤ b)
    (hb1 : b < 1) : |toroidal_norm_axis a b| ≤ 1 / 2 := by
  obtain ⟨h0, h1, h2⟩ := toroidal_norm_axis_abs_le a b
  by_cases hr : a - b ≤ -1 / 2
  · rw [abs_of_nonneg (by linarith : 0 ≤ a - b + 1)] at h1
    linarith
  · by_cases hr2 : a - b ≤ 1 / 2
    · rcases abs_cases (a - b) with ⟨e, -⟩ | ⟨e, -⟩ <;> rw [e] at h0 <;> linarith
    · rw [abs_of_neg (by linarith : a - b - 1 < 0)] at h2
      linarith

/-- On `[0,1)` the component kept by `toroidal_norm` vanishes only for equal coordinates. -/
theorem toroidal_norm_axis_eq_zero_iff (a b : α) (ha0 : 0 ≤ a) (ha1 : a < 1) (hb0 : 0 ≤ b)
    (hb1 : b < 1) : toroidal_norm_axis a b = 0 ↔ a = b := by
  constructor
  · intro h
    obtain ⟨hc, -⟩ := toroidal_norm_axis_spec a b
    rw [h] at hc
    rcases hc with e | e | e <;> linarith
  · intro h
    subst h
    norm_num [toroidal_norm_axis]

/-- The squared component kept by `toroidal_norm` does not depend on the order of the two
coordinates. -/
theorem toroidal_norm_axis_sq_comm (a b : α) :
    toroidal_norm_axis a b ^ 2 = toroidal_norm_axis b a ^ 2 := by
  obtain ⟨hc, h0, h1, h2⟩ := toroidal_norm_axis_spec a b
  obtain ⟨hc2, k0, k1, k2⟩ := toroidal_norm_axis_spec b a
  have e0 : (b - a) ^ 2 = (a - b) ^ 2 := by ring
  have e1 : (b - a + 1) ^ 2 = (a - b - 1) ^ 2 := by ring
  have e2 : (b - a - 1) ^ 2 = (a - b + 1) ^ 2 := by ring
  rw [e0] at k0
  rw [e1] at k1
  rw [e2] at k2
  apply le_antisymm
  · rcases hc2 with e | e | e <;> rw [e]
    · rw [e0]; exact h0
    · rw [e1]; exact h2
    · rw [e2]; exact h1
  · rcases hc with e | e | e <;> rw [e]
    · exact k0
    · exact k2
    · exact k1

/-- Circle triangle inequality for the component kept by `toroidal_norm` on `[0,1)`. -/
theorem toroidal_norm_axis_triangle (x y z : α) (hx0 : 0 ≤ x) (hx1 : x < 1)
    (hz0 : 0 ≤ z) (hz1 : z < 1) :
    |toroidal_norm_axis x z| ≤ |toroidal_norm_axis x y| + |toroidal_norm_axis y z| := by
  obtain ⟨h0, h1, h2⟩ := toroidal_norm_axis_abs_le x z
  obtain ⟨hB, -⟩ := toroidal_norm_axis_spec x y
  obtain ⟨hC, -⟩ := toroidal_norm_axis_spec y z
  have bB := le_abs_self (toroidal_norm_axis x y)
  have bB2 := neg_abs_le (toroidal_norm_axis x y)
  have bC := le_abs_self (toroidal_norm_axis y z)
  have bC2 := neg_abs_le (toroidal_norm_axis y z)
  have key0 : toroidal_norm_axis x y + toroidal_norm_axis y z = x - z →
      |x - z| ≤ |toroidal_norm_axis x y| + |toroidal_norm_axis y z| := fun e =>
    abs_le.mpr ⟨by linarith, by linarith⟩
  have key1 : toroidal_norm_axis x y + toroidal_norm_axis y z = x - z + 1 →
      |x - z + 1| ≤ |toroidal_norm_axis x y| + |toroidal_norm_axis y z| := fun e =>
    abs_le.mpr ⟨by linarith, by linarith⟩
  have key2 : toroidal_norm_axis x y + toroidal_norm_axis y z = x - z - 1 →
      |x - z - 1| ≤ |toroidal_norm_axis x y| + |toroidal_norm_axis y z| := fun e =>
    abs_le.mpr ⟨by linarith, by linarith⟩
  have p1 : |x - z + 1| = x - z + 1 := abs_of_nonneg (by linarith)
  have p2 : |x - z - 1| = -(x - z - 1) := abs_of_neg (by linarith)
  rcases hB with eB | eB | eB <;> rcases hC with eC | eC | eC
  · exact h0.trans (key0 (by rw [eB, eC]; ring))
  · exact h1.trans (key1 (by rw [eB, eC]; ring))
  · exact h2.trans (key2 (by rw [eB, eC]; ring))
  · exact h1.trans (key1 (by rw [eB, eC]; ring))
  · rw [p1] at h1; linarith
  · exact h0.trans (key0 (by rw [eB, eC]; ring))
  · exact h2.trans (key2 (by rw [eB, eC]; ring))
  · exact h0.trans (key0 (by rw [eB, eC]; ring))
  · rw [p2] at h2; linarith

/-! ### Sums of squares over the axes -/

theorem sum_sq_map_congr (l : List Nat) (f g : Nat → α) (h : ∀ i ∈ l, f i ^ 2 = g i ^ 2) :
    ((l.map f).map fun x => x ^ 2).sum = ((l.map g).map fun x => x ^ 2).sum := by
  induction l with
  | nil => rfl
  | cons i t ih =>
    simp only [List.map_cons, List.sum_cons]
    rw [h i (List.mem_cons_self i t), ih fun k hk => h k (List.mem_cons_of_mem i hk)]

theorem sum_sq_map_le (l : List Nat) (f : Nat → α) (c : α) (h : ∀ i ∈ l, f i ^ 2 ≤ c) :
    ((l.map f).map fun x => x ^ 2).sum ≤ (l.length : α) * c := by
  induction l with
  | nil => simp
  | cons i t ih =>
    simp only [List.map_cons, List.sum_cons, List.length_cons, Nat.cast_add, Nat.cast_one]
    have h1 := h i (List.mem_cons_self i t)
    have h2 := ih fun k hk => h k (List.mem_cons_of_mem i hk)
    linarith

theorem sum_sq_nonneg_list (w : List α) : 0 ≤ (w.map fun x => x ^ 2).sum := by
  induction w with
  | nil => simp
  | cons a t ih =>
    simp only [List.map_cons, List.sum_cons]
    exact add_nonneg (sq_nonneg a) ih

theorem sum_sq_eq_zero_iff (w : List α) :
    (w.map fun x => x ^ 2).sum = 0 ↔ ∀ x ∈ w, x = 0 := by
  induction w with
  | nil => simp
  | cons a t ih =>
    simp only [List.map_cons, List.sum_cons, List.mem_cons, forall_eq_or_imp]
    have ht := sum_sq_nonneg_list t
    constructor
    · intro h
      have ha : a ^ 2 = 0 := le_antisymm (by linarith [sq_nonneg a]) (sq_nonneg a)
      exact ⟨pow_eq_zero_iff (two_ne_zero) |>.mp ha, ih.mp (by linarith [sq_nonneg a])⟩
    · rintro ⟨ha, h⟩
      rw [ha, ih.mpr h]
      simp

/-- Minkowski step: the Euclidean norm is subadditive along axes whose components are
dominated in absolute value by a sum. -/
theorem sqrt_sum_sq_triangle (l : List Nat) (f g h : Nat → ℝ)
    (hfgh : ∀ i ∈ l, |f i| ≤ |g i| + |h i|) :
    Real.sqrt ((l.map f).map fun x => x ^ 2).sum ≤
      Real.sqrt ((l.map g).map fun x => x ^ 2).sum +
        Real.sqrt ((l.map h).map fun x => x ^ 2).sum := by
  induction l with
  | nil => simp
  | cons i t ih =>
    simp only [List.map_cons, List.sum_cons]
    have hA := ih fun k hk => hfgh k (List.mem_cons_of_mem i hk)
    have hi := hfgh i (List.mem_cons_self i t)
    have nf := sum_sq_nonneg_list (t.map f)
    have ng := sum_sq_nonneg_list (t.map g)
    have nh := sum_sq_nonneg_list (t.map h)
    generalize ((t.map f).map fun x => x ^ 2).sum = Tf at hA nf ⊢
    generalize ((t.map g).map fun x => x ^ 2).sum = Tg at hA ng ⊢
    generalize ((t.map h).map fun x => x ^ 2).sum = Th at hA nh ⊢
    have hP0 := Real.sqrt_nonneg (g i ^ 2 + Tg)
    have hQ0 := Real.sqrt_nonneg (h i ^ 2 + Th)
    have hP2 : Real.sqrt (g i ^ 2 + Tg) ^ 2 = g i ^ 2 + Tg :=
      Real.sq_sqrt (add_nonneg (sq_nonneg _) ng)
    have hQ2 : Real.sqrt (h i ^ 2 + Th) ^ 2 = h i ^ 2 + Th :=
      Real.sq_sqrt (add_nonneg (sq_nonneg _) nh)
    have hB0 := Real.sqrt_nonneg Tg
    have hC0 := Real.sqrt_nonneg Th
    have hA0 := Real.sqrt_nonneg Tf
    have hB2 : Real.sqrt Tg ^ 2 = Tg := Real.sq_sqrt ng
    have hC2 : Real.sqrt Th ^ 2 = Th := Real.sq_sqrt nh
    have hA2 : Real.sqrt Tf ^ 2 = Tf := Real.sq_sqrt nf
    rw [Real.sqrt_le_iff]
    refine ⟨add_nonneg hP0 hQ0, ?_⟩
    generalize Real.sqrt (g i ^ 2 + Tg) = P at hP0 hP2 ⊢
    generalize Real.sqrt (h i ^ 2 + Th) = Q at hQ0 hQ2 ⊢
    generalize Real.sqrt Tg = B at hB0 hB2 hA
    generalize Real.sqrt Th = C at hC0 hC2 hA
    generalize Real.sqrt Tf = A at hA0 hA2 hA
    have hb0 := abs_nonneg (g i)
    have hc0 := abs_nonneg (h i)
    have hb2 : |g i| ^ 2 = g i ^ 2 := sq_abs (g i)
    have hc2 : |h i| ^ 2 = h i ^ 2 := sq_abs (h i)
    have ha2 : |f i| ^ 2 = f i ^ 2 := sq_abs (f i)
    have ha0 := abs_nonneg (f i)
    generalize |g i| = b at hi hb0 hb2
    generalize |h i| = c at hi hc0 hc2
    generalize |f i| = a at hi ha0 ha2
    have s1 : a ^ 2 ≤ (b + c) ^ 2 := pow_le_pow_left₀ ha0 hi 2
    have s2 : A ^ 2 ≤ (B + C) ^ 2 := pow_le_pow_left₀ hA0 hA 2
    have cs : b * c + B * C ≤ P * Q := by
      have hsq : (b * c + B * C) ^ 2 ≤ (P * Q) ^ 2 := by
        have e : (P * Q) ^ 2 = (b ^ 2 + B ^ 2) * (c ^ 2 + C ^ 2) := by
          rw [mul_pow, hP2, hQ2, hb2, hc2, hB2, hC2]
        rw [e]
        nlinarith [sq_nonneg (b * C - c * B)]
      have := abs_le_of_sq_le_sq hsq (mul_nonneg hP0 hQ0)
      exact (le_abs_self _).trans this
    nlinarith

theorem toroidal_norm_eq_sqrt (v1 v2 : List ℝ) :
    toroidal_norm Real.sqrt v1 v2 =
      Real.sqrt (((List.range v1.length).map fun i =>
        toroidal_norm_axis (v1.getD i 0) (v2.getD i 0)).map fun x => x ^ 2).sum := rfl

/-- C14, amended. In exact real arithmetic (no operation is rounded), on the periodic
unit domain `toroidal_minus` is the difference modulo 1: for
points `v1`, `v2` of `[0,1)^d` and every axis `i`, with `raw = v1[i] - v2[i]`, the result
component `c` lies in `[0, 1)`, equals `raw` when `raw ≥ 0` and `raw + 1` when `raw < 0`
(it is the fractional part of `raw`), and the test of the `raw - 1` branch is false. -/
theorem toroidal_minus_mod_one (v1 v2 : List ℝ) (hd : v1.length = v2.length)
    (h1 : InUnitCube v1) (h2 : InUnitCube v2) (i : Nat) (a b : ℝ)
    (ha : v1[i]? = some a) (hb : v2[i]? = some b) :
    (toroidal_minus v1 v2).length = v2.length ∧
    ∃ c : ℝ, (toroidal_minus v1 v2)[i]? = some c ∧ 0 ≤ c ∧ c < 1 ∧
      (0 ≤ a - b → c = a - b) ∧ (a - b < 0 → c = a - b + 1) ∧ c = Int.fract (a - b) ∧
      ¬ (1 > a - b - 1 ∧ 0 ≤ a - b - 1) := by
  obtain ⟨ha0, ha1⟩ := h1 a (List.getElem?_mem ha)
  obtain ⟨hb0, hb1⟩ := h2 b (List.getElem?_mem hb)
  refine ⟨by rw [toroidal_minus_length, hd], toroidal_minus_axis a b,
    toroidal_minus_getElem? v1 v2 i a b ha hb, ?_⟩
  have hbr : ¬ (1 > a - b - 1 ∧ 0 ≤ a - b - 1) := fun h => by linarith [h.2]
  rw [toroidal_minus_axis_rule]
  by_cases hneg : a - b < 0
  · rw [if_pos (⟨by linarith, by linarith⟩ : 0 ≤ a - b + 1 ∧ a - b + 1 < 1)]
    refine ⟨by linarith, by linarith, fun h => by linarith, fun _ => rfl, ?_, hbr⟩
    symm
    rw [Int.fract_eq_iff]
    exact ⟨by linarith, by linarith, -1, by push_cast; ring⟩
  · have hn1 : ¬ (0 ≤ a - b + 1 ∧ a - b + 1 < 1) := fun h => hneg (by linarith [h.2])
    have hn2 : ¬ (0 ≤ a - b - 1 ∧ a - b - 1 < 1) := fun h => by linarith [h.1]
    rw [if_neg hn1, if_neg hn2]
    refine ⟨by linarith, by linarith, fun _ => rfl, fun h => absurd h hneg, ?_, hbr⟩
    symm
    rw [Int.fract_eq_iff]
    exact ⟨by linarith, by linarith, 0, by push_cast; ring⟩

/-- C14 amended, at `v1 = [1/4, 3/4]`, `v2 = [1/2, 1/4]`: axis 0 has `raw = -1/4` and the
component is `3/4`. -/
theorem toroidal_minus_mod_one_witness :
    ∃ c : ℝ, (toroidal_minus [(1 / 4 : ℝ), 3 / 4] [1 / 2, 1 / 4])[0]? = some c ∧ 0 ≤ c ∧ c < 1 ∧
      (0 ≤ (1 / 4 : ℝ) - 1 / 2 → c = 1 / 4 - 1 / 2) ∧
      ((1 / 4 : ℝ) - 1 / 2 < 0 → c = 1 / 4 - 1 / 2 + 1) ∧ c = Int.fract ((1 / 4 : ℝ) - 1 / 2) ∧
      ¬ (1 > (1 / 4 : ℝ) - 1 / 2 - 1 ∧ 0 ≤ (1 / 4 : ℝ) - 1 / 2 - 1) :=
  (toroidal_minus_mod_one [1 / 4, 3 / 4] [1 / 2, 1 / 4] rfl
    (by intro x hx; simp at hx; rcases hx with rfl | rfl <;> norm_num)
    (by intro x hx; simp at hx; rcases hx with rfl | rfl <;> norm_num)
    0 (1 / 4) (1 / 2) rfl rfl).2

/-- C15, amended. In exact real arithmetic (no operation and no returned value is
rounded), triangle inequality of `toroidal_norm` on the periodic unit domain: for points
`x`, `y`, `z` of equal dimension with `x` and `z` in `[0,1)^d` (the middle point `y` may
be any vector, so in particular any point of `[0,1)^d`),
`toroidal_norm(x, z) ≤ toroidal_norm(x, y) + toroidal_norm(y, z)`. -/
theorem toroidal_norm_triangle (x y z : List ℝ) (hxy : x.length = y.length)
    (hxz : x.length = z.length) (hx : InUnitCube x) (hz : InUnitCube z) :
    toroidal_norm Real.sqrt x z ≤ toroidal_norm Real.sqrt x y + toroidal_norm Real.sqrt y z := by
  rw [toroidal_norm_eq_sqrt, toroidal_norm_eq_sqrt, toroidal_norm_eq_sqrt, ← hxy]
  apply sqrt_sum_sq_triangle
  intro i hi
  have hil : i < x.length := List.mem_range.mp hi
  obtain ⟨hx0, hx1⟩ := getD_mem_unit hx hil
  obtain ⟨hz0, hz1⟩ := getD_mem_unit hz (hxz ▸ hil)
  exact toroidal_norm_axis_triangle _ _ _ hx0 hx1 hz0 hz1

/-- C15 amended, at `x = [1/10, 1/2]`, `y = [9/10, 1/2]`, `z = [1/2, 0]`. -/
theorem toroidal_norm_triangle_witness :
    toroidal_norm Real.sqrt [(1 / 10 : ℝ), 1 / 2] [1 / 2, 0] ≤
      toroidal_norm Real.sqrt [(1 / 10 : ℝ), 1 / 2] [9 / 10, 1 / 2] +
        toroidal_norm Real.sqrt [(9 / 10 : ℝ), 1 / 2] [1 / 2, 0] :=
  toroidal_norm_triangle [1 / 10, 1 / 2] [9 / 10, 1 / 2] [1 / 2, 0] rfl rfl
    (by intro x hx; simp at hx; rcases hx with rfl | rfl <;> norm_num)
    (by intro x hx; simp at hx; rcases hx with rfl | rfl <;> norm_num)

/-- C16, amended. In exact real arithmetic (no operation and no returned value is
rounded), `toroidal_norm` separates the points of the periodic unit domain: for points
`v1`, `v2` of `[0,1)^d`, `toroidal_norm(v1, v2) = 0` if and only if `v1 = v2`. -/
theorem toroidal_norm_eq_zero_iff (v1 v2 : List ℝ) (hd : v1.length = v2.length)
    (h1 : InUnitCube v1) (h2 : InUnitCube v2) :
    toroidal_norm Real.sqrt v1 v2 = 0 ↔ v1 = v2 := by
  rw [toroidal_norm_eq_sqrt, Real.sqrt_eq_zero (sum_sq_nonneg_list _), sum_sq_eq_zero_iff]
  constructor
  · intro h
    apply List.ext_getElem hd
    intro i hi1 hi2
    have hmem : toroidal_norm_axis (v1.getD i 0) (v2.getD i 0) ∈
        (List.range v1.length).map fun i => toroidal_norm_axis (v1.getD i 0) (v2.getD i 0) :=
      List.mem_map.mpr ⟨i, List.mem_range.mpr hi1, rfl⟩
    have hz := h _ hmem
    obtain ⟨a0, a1⟩ := getD_mem_unit h1 hi1
    obtain ⟨b0, b1⟩ := getD_mem_unit h2 hi2
    have e := (toroidal_norm_axis_eq_zero_iff _ _ a0 a1 b0 b1).mp hz
    rw [getD_of_getElem? (List.getElem?_eq_getElem hi1),
      getD_of_getElem? (List.getElem?_eq_getElem hi2)] at e
    exact e
  · intro h c hc
    subst h
    obtain ⟨i, hi, rfl⟩ := List.mem_map.mp hc
    have hil : i < v1.length := List.mem_range.mp hi
    obtain ⟨a0, a1⟩ := getD_mem_unit h1 hil
    exact (toroidal_norm_axis_eq_zero_iff _ _ a0 a1 a0 a1).mpr rfl

/-- C16 amended, at `v1 = [1/10, 1/2]`, `v2 = [9/10, 1/2]`: the points differ, so their toroidal
distance is not zero. -/
theorem toroidal_norm_eq_zero_iff_witness :
    toroidal_norm Real.sqrt [(1 / 10 : ℝ), 1 / 2] [9 / 10, 1 / 2] ≠ 0 := by
  intro h
  have e := (toroidal_norm_eq_zero_iff [1 / 10, 1 / 2] [9 / 10, 1 / 2] rfl
    (by intro x hx; simp at hx; rcases hx with rfl | rfl <;> norm_num)
    (by intro x hx; simp at hx; rcases hx with rfl | rfl <;> norm_num)).mp h
  have e0 : (1 / 10 : ℝ) = 9 / 10 := (List.cons.inj e).1
  norm_num at e0

/-- C17. `toroidal_norm` is symmetric: for real vectors of equal dimension, with no
restriction on their range, `toroidal_norm(v1, v2) = toroidal_norm(v2, v1)`. -/
theorem toroidal_norm_symm (v1 v2 : List ℝ) (hd : v1.length = v2.length) :
    toroidal_norm Real.sqrt v1 v2 = toroidal_norm Real.sqrt v2 v1 := by
  rw [toroidal_norm_eq_sqrt, toroidal_norm_eq_sqrt, ← hd]
  congr 1
  exact sum_sq_map_congr _ _ _ fun i _ => toroidal_norm_axis_sq_comm _ _

/-- C17, at `v1 = [0, 3]`, `v2 = [1/2, -1/2]`, with a tie `raw = -1/2` on axis 0 and
coordinates outside `[0,1)` on axis 1. -/
theorem toroidal_norm_symm_witness :
    toroidal_norm Real.sqrt [(0 : ℝ), 3] [1 / 2, -1 / 2] =
      toroidal_norm Real.sqrt [(1 / 2 : ℝ), -1 / 2] [0, 3] :=
  toroidal_norm_symm [0, 3] [1 / 2, -1 / 2] rfl

/-- C18, amended. In exact real arithmetic (no operation and no returned value is
rounded), `toroidal_norm` is bounded on the periodic unit domain: for points `v1`, `v2` of
`[0,1)^d`, every component kept by `toroidal_norm` has absolute value at most `1/2`, and
`toroidal_norm(v1, v2)^2 ≤ d/4`. -/
theorem toroidal_norm_bounded (v1 v2 : List ℝ) (hd : v1.length = v2.length)
    (h1 : InUnitCube v1) (h2 : InUnitCube v2) :
    (∀ c ∈ toroidal_norm_res v1 v2, |c| ≤ 1 / 2) ∧
      toroidal_norm Real.sqrt v1 v2 ^ 2 ≤ (v1.length : ℝ) / 4 := by
  have haxis : ∀ i ∈ List.range v1.length,
      |toroidal_norm_axis (v1.getD i 0) (v2.getD i 0)| ≤ 1 / 2 := by
    intro i hi
    have hil : i < v1.length := List.mem_range.mp hi
    obtain ⟨a0, a1⟩ := getD_mem_unit h1 hil
    obtain ⟨b0, b1⟩ := getD_mem_unit h2 (hd ▸ hil)
    exact toroidal_norm_axis_abs_le_half _ _ a0 a1 b0 b1
  constructor
  · intro c hc
    obtain ⟨i, hi, rfl⟩ := List.mem_map.mp hc
    exact haxis i hi
  · rw [toroidal_norm_eq_sqrt, Real.sq_sqrt (sum_sq_nonneg_list _)]
    have hle := sum_sq_map_le (List.range v1.length)
      (fun i => toroidal_norm_axis (v1.getD i 0) (v2.getD i 0)) (1 / 4) (by
        intro i hi
        have h := haxis i hi
        have h0 := abs_nonneg (toroidal_norm_axis (v1.getD i 0) (v2.getD i 0))
        rw [← sq_abs]
        nlinarith)
    rw [List.length_range] at hle
    linarith

/-- C18 amended, at `v1 = [0, 1/2]`, `v2 = [1/2, 0]`, where both axes reach the bound `1/2`. -/
theorem toroidal_norm_bounded_witness :
    (∀ c ∈ toroidal_norm_res [(0 : ℝ), 1 / 2] [1 / 2, 0], |c| ≤ 1 / 2) ∧
      toroidal_norm Real.sqrt [(0 : ℝ), 1 / 2] [1 / 2, 0] ^ 2 ≤ ((2 : ℕ) : ℝ) / 4 :=
  toroidal_norm_bounded [0, 1 / 2] [1 / 2, 0] rfl
    (by intro x hx; simp at hx; rcases hx with rfl | rfl <;> norm_num)
    (by intro x hx; simp at hx; rcases hx with rfl | rfl <;> norm_num)

end Toroidal

/-! ## Theorems: the emitted accessor `sample` -/

section Accessor

theorem cmod_nonneg {a : Int} (b : Int) (ha : 0 ≤ a) : 0 ≤ cmod a b :=
  Int.tmod_nonneg b ha

theorem cmod_lt (a : Int) {b : Int} (hb : 0 < b) : cmod a b < b :=
  Int.tmod_lt_of_pos a hb

theorem cmod_add_self {a b : Int} (ha : 0 ≤ a) (hb : 0 < b) : cmod (a + b) b = cmod a b := by
  unfold cmod
  rw [Int.tmod_eq_emod (by omega) (by omega), Int.tmod_eq_emod ha (by omega),
    Int.add_emod_self]

/-- The third subscript stays inside a row of `tile_size * spp * dim` values when each
reduced index is inside its extent. -/
theorem row_subscript_bounds {T spp dim jm sm dm : Int}
    (hj0 : 0 ≤ jm) (hj : jm < T) (hs0 : 0 ≤ sm) (hs : sm < spp) (hd0 : 0 ≤ dm) (hd : dm < dim) :
    0 ≤ jm * spp * dim + sm * dim + dm ∧ jm * spp * dim + sm * dim + dm < T * spp * dim := by
  have hspp : 0 ≤ spp := by omega
  have hdim : 0 ≤ dim := by omega
  have h1 : 0 ≤ jm * spp * dim := Int.mul_nonneg (Int.mul_nonneg hj0 hspp) hdim
  have h2 : 0 ≤ sm * dim := Int.mul_nonneg hs0 hdim
  have h3 : (sm + 1) * dim ≤ spp * dim := Int.mul_le_mul_of_nonneg_right (by omega) hdim
  have h4 : (jm + 1) * (spp * dim) ≤ T * (spp * dim) :=
    Int.mul_le_mul_of_nonneg_right (by omega) (Int.mul_nonneg hspp hdim)
  constructor
  · omega
  · nlinarith

/-- C8, refuted as stated: with extents `nb_frames = 2`, `tile_size = 4`, `spp = 2`,
`dim = 2` and every index equal to `-1`, the C remainder is `-1` each time, so the three
subscripts are `-1`, `-1` and `-7`: the first is not `≥ 0`, and no element of the
exported tile is read. -/
theorem sample_subscripts_negative_index :
    sample_subscripts 2 4 2 2 (-1) (-1) (-1) (-1) (-1) = (-1, -1, -7) ∧
      ¬ (0 ≤ cmod (-1) 2) ∧
      sample (export_tile examplePoints 4 2 2) 2 4 2 2 (-1) (-1) (-1) (-1) (-1) = none := by
  refine ⟨by decide, by decide, ?_⟩
  have h : sample_subscripts 2 4 2 2 (-1) (-1) (-1) (-1) (-1) = (-1, -1, -7) := by decide
  simp only [sample, h, arrayRead]
  rfl

/-- C8, amended. For positive extents and non-negative indices `f`, `i`, `j`, `s`, `d`,
the three subscripts of the emitted accessor are in bounds:
`0 ≤ f % nb_frames < nb_frames`, `0 ≤ i % tile_size < tile_size` and
`0 ≤ (j % tile_size)*spp*dim + (s % spp)*dim + (d % dim) < tile_size*spp*dim`. -/
theorem sample_subscripts_in_bounds (nb_frames tile_size spp dim f i j s d : Int)
    (hN : 0 < nb_frames) (hT : 0 < tile_size) (hS : 0 < spp) (hD : 0 < dim)
    (hf : 0 ≤ f) (hi : 0 ≤ i) (hj : 0 ≤ j) (hs : 0 ≤ s) (hd : 0 ≤ d) :
    (0 ≤ (sample_subscripts nb_frames tile_size spp dim f i j s d).1 ∧
      (sample_subscripts nb_frames tile_size spp dim f i j s d).1 < nb_frames) ∧
    (0 ≤ (sample_subscripts nb_frames tile_size spp dim f i j s d).2.1 ∧
      (sample_subscripts nb_frames tile_size spp dim f i j s d).2.1 < tile_size) ∧
    (0 ≤ (sample_subscripts nb_frames tile_size spp dim f i j s d).2.2 ∧
      (sample_subscripts nb_frames tile_size spp dim f i j s d).2.2 < tile_size * spp * dim) :=
  ⟨⟨cmod_nonneg _ hf, cmod_lt _ hN⟩, ⟨cmod_nonneg _ hi, cmod_lt _ hT⟩,
    row_subscript_bounds (cmod_nonneg _ hj) (cmod_lt _ hT) (cmod_nonneg _ hs) (cmod_lt _ hS)
      (cmod_nonneg _ hd) (cmod_lt _ hD)⟩

/-- C8 amended, at extents `2, 4, 2, 2` and indices `f = 5`, `i = 9`, `j = 7`, `s = 3`,
`d = 3`: the subscripts are `1`, `1` and `15`, inside `2`, `4` and `16`. -/
theorem sample_subscripts_in_bounds_witness :
    sample_subscripts 2 4 2 2 5 9 7 3 3 = (1, 1, 15) ∧
    (0 ≤ (sample_subscripts 2 4 2 2 5 9 7 3 3).1 ∧ (sample_subscripts 2 4 2 2 5 9 7 3 3).1 < 2) ∧
    (0 ≤ (sample_subscripts 2 4 2 2 5 9 7 3 3).2.1 ∧
      (sample_subscripts 2 4 2 2 5 9 7 3 3).2.1 < 4) ∧
    (0 ≤ (sample_subscripts 2 4 2 2 5 9 7 3 3).2.2 ∧
      (sample_subscripts 2 4 2 2 5 9 7 3 3).2.2 < 4 * 2 * 2) :=
  ⟨by decide, sample_subscripts_in_bounds 2 4 2 2 5 9 7 3 3 (by decide) (by decide) (by decide)
    (by decide) (by decide) (by decide) (by decide) (by decide) (by decide)⟩

/-- C9. Toroidal periodicity of the emitted accessor: for positive extents and
non-negative indices, adding its extent to one index (`f + nb_frames`, `i + tile_size`,
`j + tile_size`, `s + spp`, `d + dim`) leaves the three subscripts unchanged, so `sample`
reads the same element of every tile. -/
theorem sample_periodic {β : Type} (tile : List (List (List β))) (nb_frames tile_size spp dim f i j s d : Int)
    (hN : 0 < nb_frames) (hT : 0 < tile_size) (hS : 0 < spp) (hD : 0 < dim)
    (hf : 0 ≤ f) (hi : 0 ≤ i) (hj : 0 ≤ j) (hs : 0 ≤ s) (hd : 0 ≤ d) :
    (sample_subscripts nb_frames tile_size spp dim (f + nb_frames) i j s d =
        sample_subscripts nb_frames tile_size spp dim f i j s d ∧
      sample_subscripts nb_frames tile_size spp dim f (i + tile_size) j s d =
        sample_subscripts nb_frames tile_size spp dim f i j s d ∧
      sample_subscripts nb_frames tile_size spp dim f i (j + tile_size) s d =
        sample_subscripts nb_frames tile_size spp dim f i j s d ∧
      sample_subscripts nb_frames tile_size spp dim f i j (s + spp) d =
        sample_subscripts nb_frames tile_size spp dim f i j s d ∧
      sample_subscripts nb_frames tile_size spp dim f i j s (d + dim) =
        sample_subscripts nb_frames tile_size spp dim f i j s d) ∧
    (sample tile nb_frames tile_size spp dim (f + nb_frames) i j s d =
        sample tile nb_frames tile_size spp dim f i j s d ∧
      sample tile nb_frames tile_size spp dim f (i + tile_size) j s d =
        sample tile nb_frames tile_size spp dim f i j s d ∧
      sample tile nb_frames tile_size spp dim f i (j + tile_size) s d =
        sample tile nb_frames tile_size spp dim f i j s d ∧
      sample tile nb_frames tile_size spp dim f i j (s + spp) d =
        sample tile nb_frames tile_size spp dim f i j s d ∧
      sample tile nb_frames tile_size spp dim f i j s (d + dim) =
        sample tile nb_frames tile_size spp dim f i j s d) := by
  have e1 : sample_subscripts nb_frames tile_size spp dim (f + nb_frames) i j s d =
      sample_subscripts nb_frames tile_size spp dim f i j s d := by
    simp only [sample_subscripts, cmod_add_self hf hN]
  have e2 : sample_subscripts nb_frames tile_size spp dim f (i + tile_size) j s d =
      sample_subscripts nb_frames tile_size spp dim f i j s d := by
    simp only [sample_subscripts, cmod_add_self hi hT]
  have e3 : sample_subscripts nb_frames tile_size spp dim f i (j + tile_size) s d =
      sample_subscripts nb_frames tile_size spp dim f i j s d := by
    simp only [sample_subscripts, cmod_add_self hj hT]
  have e4 : sample_subscripts nb_frames tile_size spp dim f i j (s + spp) d =
      sample_subscripts nb_frames tile_size spp dim f i j s d := by
    simp only [sample_subscripts, cmod_add_self hs hS]
  have e5 : sample_subscripts nb_frames tile_size spp dim f i j s (d + dim) =
      sample_subscripts nb_frames tile_size spp dim f i j s d := by
    simp only [sample_subscripts, cmod_add_self hd hD]
  refine ⟨⟨e1, e2, e3, e4, e5⟩, ?_, ?_, ?_, ?_, ?_⟩
  · simp only [sample, e1]
  · simp only [sample, e2]
  · simp only [sample, e3]
  · simp only [sample, e4]
  · simp only [sample, e5]

/-- C9, at the spec's example `tile_size = 4`, `spp = 2`, `dim = 2`, `nb_frames = 1` on
the tile exported from `examplePoints`: `sample(0, i, 1, 1, 1)` is the same for `i = 0`,
`4` and `8`. -/
theorem sample_periodic_witness :
    sample (export_tile examplePoints 4 2 1) 1 4 2 2 0 4 1 1 1 =
        sample (export_tile examplePoints 4 2 1) 1 4 2 2 0 0 1 1 1 ∧
      sample (export_tile examplePoints 4 2 1) 1 4 2 2 0 8 1 1 1 =
        sample (export_tile examplePoints 4 2 1) 1 4 2 2 0 4 1 1 1 :=
  ⟨(sample_periodic (export_tile examplePoints 4 2 1) 1 4 2 2 0 0 1 1 1 (by decide) (by decide)
      (by decide) (by decide) (by decide) (by decide) (by decide) (by decide) (by decide)).2.2.1,
    (sample_periodic (export_tile examplePoints 4 2 1) 1 4 2 2 0 4 1 1 1 (by decide) (by decide)
      (by decide) (by decide) (by decide) (by decide) (by decide) (by decide) (by decide)).2.2.1⟩

end Accessor

/-! ## Theorems: direction sampler -/

section Directions

theorem chooseDirectionsLoop_succ (E : Engine σ α) (sqrt cos sin : α → α) (dim m : Nat)
    (directions : List (List α)) (s : σ) (k : Nat) :
    chooseDirectionsLoop E sqrt cos sin dim m directions s (k + 1) =
      ((chooseDirectionsLoop E sqrt cos sin dim m directions s k).1.set k
          (VecX.normalize sqrt (chooseDirection E cos sin dim m k
            ((chooseDirectionsLoop E sqrt cos sin dim m directions s k).1.getD k [])
            (chooseDirectionsLoop E sqrt cos sin dim m directions s k).2).1),
        (chooseDirection E cos sin dim m k
            ((chooseDirectionsLoop E sqrt cos sin dim m directions s k).1.getD k [])
            (chooseDirectionsLoop E sqrt cos sin dim m directions s k).2).2) := rfl

/-- The loop never changes the number of directions in the table. -/
theorem chooseDirectionsLoop_length (E : Engine σ α) (sqrt cos sin : α → α) (dim m : Nat)
    (directions : List (List α)) (s : σ) (n : Nat) :
    (chooseDirectionsLoop E sqrt cos sin dim m directions s n).1.length = directions.length := by
  induction n with
  | zero => rfl
  | succ k ih => rw [chooseDirectionsLoop_succ, List.length_set, ih]

/-- After `n` iterations the entries of index `≥ n` are still the caller's. -/
theorem chooseDirectionsLoop_untouched (E : Engine σ α) (sqrt cos sin : α → α) (dim m : Nat)
    (directions : List (List α)) (s : σ) (n i : Nat) (h : n ≤ i) :
    (chooseDirectionsLoop E sqrt cos sin dim m directions s n).1[i]? = directions[i]? := by
  induction n with
  | zero => rfl
  | succ k ih =>
    rw [chooseDirectionsLoop_succ, List.getElem?_set_ne (by omega), ih (by omega)]

/-- Entry `k` is final once iteration `k` has run. -/
theorem chooseDirectionsLoop_settled (E : Engine σ α) (sqrt cos sin : α → α) (dim m : Nat)
    (directions : List (List α)) (s : σ) (n k : Nat) (h : k < n) :
    (chooseDirectionsLoop E sqrt cos sin dim m directions s n).1[k]? =
      (chooseDirectionsLoop E sqrt cos sin dim m directions s (k + 1)).1[k]? := by
  induction n with
  | zero => omega
  | succ j ih =>
    by_cases hj : k = j
    · subst hj; rfl
    · rw [chooseDirectionsLoop_succ E sqrt cos sin dim m directions s j,
        List.getElem?_set_ne (fun e => hj e.symm), ih (by omega)]

/-- What the loop leaves in entry `k`: the vector built by iteration `k` from the
caller's `directions[k]`, normalised. -/
theorem chooseDirectionsLoop_written (E : Engine σ α) (sqrt cos sin : α → α) (dim m : Nat)
    (directions : List (List α)) (s : σ) (n k : Nat) (h : k < n) (v : List α)
    (hv : directions[k]? = some v) :
    (chooseDirectionsLoop E sqrt cos sin dim m directions s n).1[k]? =
      some (VecX.normalize sqrt (chooseDirection E cos sin dim m k v
        (chooseDirectionsLoop E sqrt cos sin dim m directions s k).2).1) := by
  have hk : k < directions.length := lt_length_of_getElem? hv
  have hget : (chooseDirectionsLoop E sqrt cos sin dim m directions s k).1.getD k [] = v := by
    rw [List.getD_eq_getElem?_getD, chooseDirectionsLoop_untouched _ _ _ _ _ _ _ _ _ _ (le_refl k),
      hv]
    rfl
  rw [chooseDirectionsLoop_settled _ _ _ _ _ _ _ _ _ _ h, chooseDirectionsLoop_succ,
    List.getElem?_set_self (by rw [chooseDirectionsLoop_length]; exact hk), hget]

/-- The inner loop never changes the dimension of the vector it fills. -/
theorem fillNormal_length {β : Type} (E : Engine σ β) (v : List β) (s : σ) (n : Nat) :
    (fillNormal E v s n).1.length = v.length := by
  induction n with
  | zero => rfl
  | succ k ih => simp only [fillNormal, List.length_set, ih]

theorem headD_length_of_forall {β : Type} {directions : List (List β)} {dim : Nat}
    (hne : 0 < directions.length) (hdim : ∀ v ∈ directions, v.length = dim) :
    (directions.headD []).length = dim := by
  cases directions with
  | nil => simp at hne
  | cons d rest => exact hdim d (List.mem_cons_self d rest)

theorem sum_sq_normalize (c : α) (l : List α) :
    ((l.map fun x => x / c).map fun x => x ^ 2).sum = (l.map fun x => x ^ 2).sum / c ^ 2 := by
  induction l with
  | nil => simp
  | cons a t ih =>
    simp only [List.map_cons, List.sum_cons, ih, div_pow, add_div]

theorem sum_sq_nonneg (l : List α) : 0 ≤ (l.map fun x => x ^ 2).sum := by
  induction l with
  | nil => simp
  | cons a t ih =>
    simp only [List.map_cons, List.sum_cons]
    exact add_nonneg (sq_nonneg a) ih

theorem sum_sq_pos_of_exists_ne (l : List α) (h : ∃ x ∈ l, x ≠ 0) :
    0 < (l.map fun x => x ^ 2).sum := by
  induction l with
  | nil => obtain ⟨x, hx, -⟩ := h; simp at hx
  | cons a t ih =>
    simp only [List.map_cons, List.sum_cons]
    obtain ⟨x, hx, hne⟩ := h
    rcases List.mem_cons.mp hx with rfl | hxt
    · exact add_pos_of_pos_of_nonneg (by positivity) (sum_sq_nonneg t)
    · exact add_pos_of_nonneg_of_pos (sq_nonneg a) (ih ⟨x, hxt, hne⟩)

/-- Normalising a real vector with a non-zero component gives a vector of norm 1. -/
theorem norm_normalize (w : List ℝ) (h : ∃ x ∈ w, x ≠ 0) :
    VecX.norm Real.sqrt (VecX.normalize Real.sqrt w) = 1 := by
  have hpos := sum_sq_pos_of_exists_ne w h
  unfold VecX.norm VecX.normalize
  rw [sum_sq_normalize]
  unfold VecX.norm
  rw [Real.sq_sqrt hpos.le, div_self hpos.ne.symm, Real.sqrt_one]

/-- Normalising a real vector whose squares sum to 1 leaves it unchanged. -/
theorem normalize_of_sum_sq_eq_one (w : List ℝ) (h : (w.map fun x => x ^ 2).sum = 1) :
    VecX.normalize Real.sqrt w = w := by
  unfold VecX.normalize VecX.norm
  rw [h, Real.sqrt_one]
  simp

theorem normalize_cos_sin (t : ℝ) :
    VecX.normalize Real.sqrt [Real.cos t, Real.sin t] = [Real.cos t, Real.sin t] :=
  normalize_of_sum_sq_eq_one _ (by simp)

theorem normalize_axis0 : VecX.normalize Real.sqrt [(1 : ℝ), 0] = [1, 0] :=
  normalize_of_sum_sq_eq_one _ (by simp)

theorem normalize_axis1 : VecX.normalize Real.sqrt [(0 : ℝ), 1] = [0, 1] :=
  normalize_of_sum_sq_eq_one _ (by simp)

/-- The vector built by iteration `k` in dimension 2, before normalisation. -/
theorem chooseDirection_two (E : Engine σ ℝ) (m k : Nat) (v : List ℝ) (hv : v.length = 2)
    (s : σ) :
    (chooseDirection E Real.cos Real.sin 2 m k v s).1 =
      if (E.unif s).1 < 0.7 then
        [Real.cos (((k : ℝ) + (E.unif (E.unif s).2).1) / (m : ℝ) * (2 * PI)),
          Real.sin (((k : ℝ) + (E.unif (E.unif s).2).1) / (m : ℝ) * (2 * PI))]
      else if (E.unif s).1 < 0.85 then [1, 0]
      else [0, 1] := by
  obtain ⟨x, y, rfl⟩ : ∃ x y, v = [x, y] := by
    match v, hv with
    | [x, y], _ => exact ⟨x, y, rfl⟩
  have hth : ((k : ℝ) / (m : ℝ) + (E.unif (E.unif s).2).1 / (m : ℝ)) * 2 * PI =
      ((k : ℝ) + (E.unif (E.unif s).2).1) / (m : ℝ) * (2 * PI) := by ring
  simp only [chooseDirection, if_true, hth]
  split_ifs <;> norm_num

/-- C3, amended. In exact real arithmetic (no operation is rounded, `float(k)/m` is the
exact quotient and the constants are the decimals written in the source), the 2-D
direction policy of `chooseDirectionsND`: for a table of at least `m`
two-dimensional vectors and every index `k < m` (so `m > 0`), with `r` the first uniform draw consumed
for `k` and `j` the draw after it, the direction written at index `k` is
`(cos θ, sin θ)` with `θ = ((k + j)/m) * 2*PI` when `r < 0.7`, `(1, 0)` when
`0.7 ≤ r < 0.85`, and `(0, 1)` otherwise (`PI` is the constant of the source); and
`normalize` leaves each of the three unchanged. -/
theorem chooseDirectionsND_policy_2d (E : Engine σ ℝ) (generatorND : Option σ)
    (directions : List (List ℝ)) (m : Nat) (seed : Int)
    (hlen : m ≤ directions.length) (hdim : ∀ v ∈ directions, v.length = 2)
    (k : Nat) (hk : k < m) :
    let s := engineBefore E Real.sqrt Real.cos Real.sin generatorND directions m seed k
    let r := (E.unif s).1
    let j := (E.unif (E.unif s).2).1
    let theta := ((k : ℝ) + j) / (m : ℝ) * (2 * PI)
    (chooseDirectionsND E Real.sqrt Real.cos Real.sin generatorND directions m seed).1[k]? =
        some (if r < 0.7 then [Real.cos theta, Real.sin theta]
          else if r < 0.85 then [1, 0]
          else [0, 1]) ∧
      VecX.normalize Real.sqrt [Real.cos theta, Real.sin theta] =
        [Real.cos theta, Real.sin theta] ∧
      VecX.normalize Real.sqrt [(1 : ℝ), 0] = [1, 0] ∧
      VecX.normalize Real.sqrt [(0 : ℝ), 1] = [0, 1] := by
  intro s r j theta
  refine ⟨?_, normalize_cos_sin theta, normalize_axis0, normalize_axis1⟩
  have hd2 : (directions.headD []).length = 2 :=
    headD_length_of_forall (by omega) hdim
  have hkl : k < directions.length := by omega
  have hv : directions[k]? = some directions[k] := List.getElem?_eq_getElem hkl
  have hv2 : directions[k].length = 2 := hdim _ (List.getElem_mem hkl)
  have hw := chooseDirectionsLoop_written E Real.sqrt Real.cos Real.sin 2 m directions
    (engineAtEntry E generatorND seed) m k hk directions[k] hv
  have hs : (chooseDirectionsLoop E Real.sqrt Real.cos Real.sin 2 m directions
      (engineAtEntry E generatorND seed) k).2 = s := by
    show _ = engineBefore E Real.sqrt Real.cos Real.sin generatorND directions m seed k
    unfold engineBefore
    rw [hd2]
  unfold chooseDirectionsND
  simp only [hd2]
  rw [hw, hs, chooseDirection_two E m k _ hv2 s]
  show some (VecX.normalize Real.sqrt (if r < 0.7 then [Real.cos theta, Real.sin theta]
    else if r < 0.85 then [1, 0] else [0, 1])) = _
  split_ifs
  · rw [normalize_cos_sin]
  · rw [normalize_axis0]
  · rw [normalize_axis1]

/-- C3 amended, on a replayed random source with uniform draws `9/10, 3/4, 1/2, 1/4, ...`, for
`m = 3` and a table of three 2-D vectors: index 0 draws `r = 9/10` and gets `(0, 1)`;
index 1 draws `r = 3/4` and gets `(1, 0)`. -/
theorem chooseDirectionsND_policy_2d_witness :
    (chooseDirectionsND
        (exampleEngine (fun n => if n = 0 then (9 / 10 : ℝ) else if n = 1 then 3 / 4 else 1 / 4)
          (fun _ => 0))
        Real.sqrt Real.cos Real.sin none [[5, 5], [5, 5], [5, 5]] 3 7).1[0]? = some [0, 1] := by
  have h := (chooseDirectionsND_policy_2d
    (exampleEngine (fun n => if n = 0 then (9 / 10 : ℝ) else if n = 1 then 3 / 4 else 1 / 4)
      (fun _ => 0))
    none [[5, 5], [5, 5], [5, 5]] 3 7 (by decide)
    (by intro v hv; simp at hv; subst hv; rfl) 0 (by decide)).1
  rw [h]
  norm_num [engineBefore, engineAtEntry, chooseDirectionsLoop, exampleEngine]

/-- C4, refuted as stated: in the Gaussian branch (`dim = 3`, `m = 1`) with the three
normal draws all equal to `0`, the vector written is `(0, 0, 0)`, whose norm is `0`, not
`1`: dividing the zero vector by its norm does not give a unit vector. -/
theorem chooseDirectionsND_zero_draws_not_unit :
    (chooseDirectionsND (exampleEngine (fun _ => (0 : ℝ)) (fun _ => 0))
        Real.sqrt Real.cos Real.sin none [[5, 5, 5]] 1 7).1 = [[0, 0, 0]] ∧
      VecX.norm Real.sqrt [(0 : ℝ), 0, 0] ≠ 1 := by
  constructor
  · simp [chooseDirectionsND, chooseDirectionsLoop, chooseDirection, fillNormal, engineAtEntry,
      exampleEngine, VecX.normalize]
  · simp [VecX.norm]

/-- C4, amended. Unit-norm postcondition of `chooseDirectionsND`: for every dimension
`dim`, every count `m`, a table of at least `m` vectors of dimension `dim` and every
random source, each of the `m` directions written (index `k < m`) has dimension `dim` and
Euclidean norm exactly 1, provided that in the Gaussian branch (`dim ≠ 2`) the `dim`
normal draws filled in for each index are not all zero (which forces `dim > 0`). -/
theorem chooseDirectionsND_unit_norm (E : Engine σ ℝ) (generatorND : Option σ)
    (directions : List (List ℝ)) (dim m : Nat) (seed : Int)
    (hlen : m ≤ directions.length) (hdim : ∀ v ∈ directions, v.length = dim)
    (hnz : dim ≠ 2 → ∀ k, k < m → ∃ x ∈ (fillNormal E (directions.getD k [])
      (engineBefore E Real.sqrt Real.cos Real.sin generatorND directions m seed k) dim).1, x ≠ 0)
    (k : Nat) (hk : k < m) :
    ∃ v, (chooseDirectionsND E Real.sqrt Real.cos Real.sin generatorND directions m seed).1[k]? =
        some v ∧ v.length = dim ∧ VecX.norm Real.sqrt v = 1 := by
  have hd : (directions.headD []).length = dim := headD_length_of_forall (by omega) hdim
  have hkl : k < directions.length := by omega
  have hv : directions[k]? = some directions[k] := List.getElem?_eq_getElem hkl
  have hvd : directions[k].length = dim := hdim _ (List.getElem_mem hkl)
  have hw := chooseDirectionsLoop_written E Real.sqrt Real.cos Real.sin dim m directions
    (engineAtEntry E generatorND seed) m k hk directions[k] hv
  have hs : (chooseDirectionsLoop E Real.sqrt Real.cos Real.sin dim m directions
      (engineAtEntry E generatorND seed) k).2 =
      engineBefore E Real.sqrt Real.cos Real.sin generatorND directions m seed k := by
    unfold engineBefore
    rw [hd]
  refine ⟨VecX.normalize Real.sqrt (chooseDirection E Real.cos Real.sin dim m k directions[k]
    (chooseDirectionsLoop E Real.sqrt Real.cos Real.sin dim m directions
      (engineAtEntry E generatorND seed) k).2).1, ?_, ?_, ?_⟩
  · unfold chooseDirectionsND
    simp only [hd]
    exact hw
  · by_cases h2 : dim = 2
    · subst h2
      rw [chooseDirection_two E m k _ hvd]
      split_ifs
      · rw [normalize_cos_sin]; rfl
      · rw [normalize_axis0]; rfl
      · rw [normalize_axis1]; rfl
    · simp only [chooseDirection, if_neg h2, VecX.normalize, List.length_map, fillNormal_length,
        hvd]
  · by_cases h2 : dim = 2
    · subst h2
      rw [chooseDirection_two E m k _ hvd]
      split_ifs
      · rw [normalize_cos_sin]; simp [VecX.norm]
      · rw [normalize_axis0]; simp [VecX.norm]
      · rw [normalize_axis1]; simp [VecX.norm]
    · apply norm_normalize
      have h := hnz h2 k hk
      rw [List.getD_eq_getElem?_getD, hv] at h
      simp only [chooseDirection, if_neg h2, hs]
      exact h

/-- C4 amended, in dimension 3 with the normal draws `1, 2, 2`: the single direction
written has norm 1. -/
theorem chooseDirectionsND_unit_norm_witness :
    ∃ v, (chooseDirectionsND (exampleEngine (fun _ => (0 : ℝ)) (fun n => if n = 0 then 1 else 2))
        Real.sqrt Real.cos Real.sin none [[5, 5, 5]] 1 7).1[0]? = some v ∧
      v.length = 3 ∧ VecX.norm Real.sqrt v = 1 :=
  chooseDirectionsND_unit_norm (exampleEngine (fun _ => (0 : ℝ)) (fun n => if n = 0 then 1 else 2))
    none [[5, 5, 5]] 3 1 7 (by decide)
    (by intro v hv; simp at hv; subst hv; rfl)
    (by
      intro _ k hk
      have hk0 : k = 0 := by omega
      subst hk0
      exact ⟨1, by simp [fillNormal, engineBefore, engineAtEntry, chooseDirectionsLoop,
        exampleEngine], one_ne_zero⟩)
    0 (by decide)

theorem PI_pos : (0 : ℝ) < PI := by
  unfold PI
  norm_num

/-- Membership of bin `i` read on the scaled angle `x * m / (2*PI)`. -/
theorem inAngularBin_iff (m i : Nat) (x : ℝ) (hm : 0 < m) :
    InAngularBin m i x ↔ (i : ℝ) ≤ x * m / (2 * PI) ∧ x * m / (2 * PI) < (i : ℝ) + 1 := by
  have hm0 : (0 : ℝ) < m := Nat.cast_pos.mpr hm
  have h2 : (0 : ℝ) < 2 * PI := by linarith [PI_pos]
  unfold InAngularBin
  rw [div_le_iff₀ hm0, lt_div_iff₀ hm0, le_div_iff₀ h2, div_lt_iff₀ h2]
  constructor
  · rintro ⟨a, b⟩
    exact ⟨by linarith, by linarith⟩
  · rintro ⟨a, b⟩
    exact ⟨by linarith, by linarith⟩

/-- The `m > 0` bins are pairwise disjoint and cover exactly `[0, 2*PI)`. -/
theorem angularBins_partition (m : Nat) (hm : 0 < m) (x : ℝ) :
    (0 ≤ x ∧ x < 2 * PI) ↔ ∃! i : Nat, i < m ∧ InAngularBin m i x := by
  have h2 : (0 : ℝ) < 2 * PI := by linarith [PI_pos]
  constructor
  · rintro ⟨hx0, hx1⟩
    have hm0 : (0 : ℝ) < m := Nat.cast_pos.mpr hm
    have hy0 : 0 ≤ x * m / (2 * PI) := div_nonneg (mul_nonneg hx0 hm0.le) h2.le
    have hym : x * m / (2 * PI) < m := by
      rw [div_lt_iff₀ h2]
      nlinarith
    refine ⟨⌊x * m / (2 * PI)⌋₊, ⟨?_, ?_⟩, ?_⟩
    · have hfl := Nat.floor_le hy0
      have : ((⌊x * m / (2 * PI)⌋₊ : ℕ) : ℝ) < (m : ℝ) := lt_of_le_of_lt hfl hym
      exact_mod_cast this
    · rw [inAngularBin_iff m _ x hm]
      exact ⟨Nat.floor_le hy0, Nat.lt_floor_add_one _⟩
    · rintro i ⟨-, hi⟩
      rw [inAngularBin_iff m i x hm] at hi
      exact ((Nat.floor_eq_iff hy0).mpr hi).symm
  · rintro ⟨i, ⟨him, hi⟩, -⟩
    have hm0 : (0 : ℝ) < m := Nat.cast_pos.mpr hm
    rw [inAngularBin_iff m i x hm] at hi
    have hi0 : (0 : ℝ) ≤ i := Nat.cast_nonneg i
    have hi1 : (i : ℝ) + 1 ≤ m := by exact_mod_cast him
    have hy0 : 0 ≤ x * m / (2 * PI) := le_trans hi0 hi.1
    have hym : x * m / (2 * PI) < m := lt_of_lt_of_le hi.2 hi1
    rw [div_lt_iff₀ h2] at hym
    rw [le_div_iff₀ h2] at hy0
    constructor
    · by_contra hneg
      push_neg at hneg
      nlinarith
    · by_contra hge
      push_neg at hge
      nlinarith

/-- C11, amended. In exact real arithmetic (no operation is rounded and `float(k)/m` is
the exact quotient), stratification of the 2-D directions into equal angular bins: for
`dim = 2`,
`k < m` (so `m > 0`) and a jitter draw `j` in `[0,1)`, the stratified branch (`r < 0.7`)
writes `(cos θ, sin θ)` with `θ = (k/m + j/m)*2*PI`, and `2*PI*k/m ≤ θ < 2*PI*(k+1)/m`;
the `m` bins are pairwise disjoint and cover `[0, 2*PI)`: an angle lies in `[0, 2*PI)`
exactly when it lies in one and only one bin of index `< m`. Here `PI` is the constant
of the source. -/
theorem stratified_angle_in_bin (E : Engine σ ℝ) (m k : Nat) (v : List ℝ) (s : σ)
    (hk : k < m) (hv : v.length = 2) (hr : (E.unif s).1 < 0.7)
    (hj0 : 0 ≤ (E.unif (E.unif s).2).1) (hj1 : (E.unif (E.unif s).2).1 < 1) :
    let theta := ((k : ℝ) / (m : ℝ) + (E.unif (E.unif s).2).1 / (m : ℝ)) * 2 * PI
    (chooseDirection E Real.cos Real.sin 2 m k v s).1 = [Real.cos theta, Real.sin theta] ∧
      InAngularBin m k theta ∧
      ∀ x : ℝ, (0 ≤ x ∧ x < 2 * PI) ↔ ∃! i : Nat, i < m ∧ InAngularBin m i x := by
  intro theta
  have hm : 0 < m := by omega
  have hm0 : (0 : ℝ) < m := Nat.cast_pos.mpr hm
  have h2 : (0 : ℝ) < 2 * PI := by linarith [PI_pos]
  refine ⟨?_, ?_, angularBins_partition m hm⟩
  · rw [chooseDirection_two E m k v hv s, if_pos hr]
    have e : ((k : ℝ) + (E.unif (E.unif s).2).1) / (m : ℝ) * (2 * PI) = theta := by
      show _ = ((k : ℝ) / (m : ℝ) + (E.unif (E.unif s).2).1 / (m : ℝ)) * 2 * PI
      ring
    rw [e]
  · rw [inAngularBin_iff m k theta hm]
    have e : theta * m / (2 * PI) = (k : ℝ) + (E.unif (E.unif s).2).1 := by
      show ((k : ℝ) / (m : ℝ) + (E.unif (E.unif s).2).1 / (m : ℝ)) * 2 * PI * m / (2 * PI) = _
      field_simp
      ring
    rw [e]
    exact ⟨by linarith, by linarith⟩

/-- C11 amended, on a replayed random source whose first uniform draw is `1/2` and whose second
is `1/4`, for `m = 4` and `k = 1`: the angle `(1/4 + (1/4)/4)*2*PI` lies in bin 1. -/
theorem stratified_angle_in_bin_witness :
    InAngularBin 4 1 (((1 : ℕ) / (4 : ℕ) + (1 / 4 : ℝ) / (4 : ℕ)) * 2 * PI) :=
  (stratified_angle_in_bin
    (exampleEngine (fun n => if n = 0 then (1 / 2 : ℝ) else 1 / 4) (fun _ => 0))
    4 1 [0, 0] 0 (by decide) rfl
    (by norm_num [exampleEngine]) (by norm_num [exampleEngine])
    (by norm_num [exampleEngine])).2.1

end Directions

/-! ## Theorems: volume sampler -/

section Volume

theorem sum_sq_scale (c : α) (l : List α) :
    ((l.map fun x => x * c).map fun x => x ^ 2).sum = c ^ 2 * (l.map fun x => x ^ 2).sum := by
  induction l with
  | nil => simp
  | cons a t ih =>
    simp only [List.map_cons, List.sum_cons, ih]
    ring

/-- Scaling a real vector by `c ≥ 0` scales its norm by `c`. -/
theorem norm_scale (c : ℝ) (hc : 0 ≤ c) (w : List ℝ) :
    VecX.norm Real.sqrt (VecX.scale c w) = c * VecX.norm Real.sqrt w := by
  unfold VecX.norm VecX.scale
  rw [sum_sq_scale, Real.sqrt_mul (sq_nonneg c), Real.sqrt_sq hc]

/-- C13. `randomVectorInBall` returns a point of the closed unit ball: for `dim > 0`, a
uniform draw `U` in `[0,1)` and `dim` normal draws that are not all zero, the vector
returned has dimension `dim` and Euclidean norm `U^(1/dim)`, hence norm `≤ 1` and
`norm^dim = U`. -/
theorem randomVectorInBall_norm (E : Engine σ ℝ) (dim : Nat) (s : σ) (hdim : 0 < dim)
    (hU0 : 0 ≤ (E.unif (fillNormal E (List.replicate dim 0) s dim).2).1)
    (hU1 : (E.unif (fillNormal E (List.replicate dim 0) s dim).2).1 < 1)
    (hnz : ∃ x ∈ (fillNormal E (List.replicate dim 0) s dim).1, x ≠ 0) :
    (randomVectorInBall E Real.sqrt Real.rpow dim s).1.length = dim ∧
      VecX.norm Real.sqrt (randomVectorInBall E Real.sqrt Real.rpow dim s).1 =
        (E.unif (fillNormal E (List.replicate dim 0) s dim).2).1 ^ (1 / (dim : ℝ)) ∧
      VecX.norm Real.sqrt (randomVectorInBall E Real.sqrt Real.rpow dim s).1 ≤ 1 ∧
      VecX.norm Real.sqrt (randomVectorInBall E Real.sqrt Real.rpow dim s).1 ^ dim =
        (E.unif (fillNormal E (List.replicate dim 0) s dim).2).1 := by
  have hpow0 : 0 ≤ (E.unif (fillNormal E (List.replicate dim 0) s dim).2).1 ^ (1 / (dim : ℝ)) :=
    Real.rpow_nonneg hU0 _
  have hnorm : VecX.norm Real.sqrt (randomVectorInBall E Real.sqrt Real.rpow dim s).1 =
      (E.unif (fillNormal E (List.replicate dim 0) s dim).2).1 ^ (1 / (dim : ℝ)) := by
    show VecX.norm Real.sqrt (VecX.scale
      ((E.unif (fillNormal E (List.replicate dim 0) s dim).2).1 ^ (1 / (dim : ℝ)))
      (VecX.normalize Real.sqrt (fillNormal E (List.replicate dim 0) s dim).1)) = _
    rw [norm_scale _ hpow0, norm_normalize _ hnz, mul_one]
  refine ⟨?_, hnorm, ?_, ?_⟩
  · simp [randomVectorInBall, VecX.scale, VecX.normalize, fillNormal_length]
  · rw [hnorm]
    exact Real.rpow_le_one hU0 hU1.le (by positivity)
  · rw [hnorm, one_div]
    exact Real.rpow_inv_natCast_pow hU0 (by omega)

/-- C13, in dimension 2 with the normal draws `3, 4` followed by the uniform draw `1/4`:
the vector returned has norm `(1/4)^(1/2)`, at most 1, whose square is `1/4`. -/
theorem randomVectorInBall_norm_witness :
    VecX.norm Real.sqrt (randomVectorInBall
        (exampleEngine (fun _ => (1 / 4 : ℝ)) (fun n => if n = 0 then 3 else 4))
        Real.sqrt Real.rpow 2 0).1 ≤ 1 ∧
      VecX.norm Real.sqrt (randomVectorInBall
        (exampleEngine (fun _ => (1 / 4 : ℝ)) (fun n => if n = 0 then 3 else 4))
        Real.sqrt Real.rpow 2 0).1 ^ 2 = 1 / 4 := by
  have h := randomVectorInBall_norm
    (exampleEngine (fun _ => (1 / 4 : ℝ)) (fun n => if n = 0 then 3 else 4)) 2 0 (by decide)
    (by norm_num [exampleEngine]) (by norm_num [exampleEngine])
    ⟨3, by simp [fillNormal, exampleEngine], by norm_num⟩
  refine ⟨h.2.2.1, ?_⟩
  rw [h.2.2.2]
  norm_num [exampleEngine]

end Volume

/-! ## Theorems: tile exporter -/

section Exporter

/-- Concatenating `n` blocks of `L` values gives `n * L` values. -/
theorem flatMap_range_length {β : Type} (f : Nat → List β) (L n : Nat)
    (hL : ∀ j, j < n → (f j).length = L) : ((List.range n).flatMap f).length = n * L := by
  induction n with
  | zero => simp
  | succ n ih =>
    rw [List.range_succ, List.flatMap_append, List.length_append,
      ih fun j hj => hL j (by omega)]
    simp only [List.flatMap_cons, List.flatMap_nil, List.append_nil]
    rw [hL n (by omega)]
    ring

/-- Value `r` of block `j` sits at position `j * L + r` of the concatenation. -/
theorem flatMap_range_getElem? {β : Type} (f : Nat → List β) (L n : Nat)
    (hL : ∀ j, j < n → (f j).length = L) (j r : Nat) (hj : j < n) (hr : r < L) :
    ((List.range n).flatMap f)[j * L + r]? = (f j)[r]? := by
  induction n with
  | zero => omega
  | succ n ih =>
    have hlen := flatMap_range_length f L n fun k hk => hL k (by omega)
    rw [List.range_succ, List.flatMap_append]
    simp only [List.flatMap_cons, List.flatMap_nil, List.append_nil]
    by_cases hjn : j < n
    · have hlt : j * L + r < ((List.range n).flatMap f).length := by
        rw [hlen]
        have : (j + 1) * L ≤ n * L := Nat.mul_le_mul_right L (by omega)
        rw [Nat.add_mul, Nat.one_mul] at this
        omega
      rw [List.getElem?_append_left hlt]
      exact ih (fun k hk => hL k (by omega)) hjn
    · have hjeq : j = n := by omega
      subst hjeq
      rw [List.getElem?_append_right (by rw [hlen]; omega), hlen, Nat.add_sub_cancel_left]

theorem export_inner_length (points : List (List α)) (tile_size spp dim i j : Nat) :
    ((List.range spp).flatMap fun k => (List.range dim).map fun d =>
      (points.getD ((i * tile_size + j) * spp + k) []).getD d 0).length = spp * dim :=
  flatMap_range_length _ dim spp fun k _ => by simp

/-- A row holds `tile_size * spp * dim` values. -/
theorem export_row_length (points : List (List α)) (tile_size spp dim i : Nat) :
    (export_row points tile_size spp dim i).length = tile_size * spp * dim := by
  unfold export_row
  rw [flatMap_range_length _ (spp * dim) tile_size fun j _ =>
    export_inner_length points tile_size spp dim i j, Nat.mul_assoc]

/-- Position `j*spp*dim + s*dim + d` of row `i` holds `points[(i*tile_size+j)*spp+s][d]`. -/
theorem export_row_getElem? (points : List (List α)) (tile_size spp dim i j s d : Nat)
    (hj : j < tile_size) (hs : s < spp) (hd : d < dim) :
    (export_row points tile_size spp dim i)[j * spp * dim + s * dim + d]? =
      some ((points.getD ((i * tile_size + j) * spp + s) []).getD d 0) := by
  have hsd : s * dim + d < spp * dim := by
    have : (s + 1) * dim ≤ spp * dim := Nat.mul_le_mul_right dim (by omega)
    rw [Nat.add_mul, Nat.one_mul] at this
    omega
  have e : j * spp * dim + s * dim + d = j * (spp * dim) + (s * dim + d) := by
    rw [Nat.mul_assoc, Nat.add_assoc]
  unfold export_row
  rw [e, flatMap_range_getElem? _ (spp * dim) tile_size
      (fun j _ => export_inner_length points tile_size spp dim i j) j (s * dim + d) hj hsd,
    flatMap_range_getElem? _ dim spp (fun k _ => by simp) s d hs hd]
  simp [List.getElem?_range hd]

/-- Every frame of the exported tile is the same list of `tile_size` rows. -/
theorem export_tile_getElem? (points : List (List α)) (tile_size spp nb_frames f : Nat)
    (hf : f < nb_frames) :
    (export_tile points tile_size spp nb_frames)[f]? =
      some ((List.range tile_size).map fun i =>
        export_row points tile_size spp (points.headD []).length i) := by
  unfold export_tile
  rw [List.getElem?_map, List.getElem?_range hf]
  rfl

theorem getD_eq_of_getElem? {β : Type} {l : List β} {i : Nat} {a : β} (dflt : β)
    (h : l[i]? = some a) : l.getD i dflt = a := by
  rw [List.getD_eq_getElem?_getD, h]
  rfl

theorem arrayRead_natCast {β : Type} (a : List β) (n : Nat) : arrayRead a (n : Int) = a[n]? := by
  simp [arrayRead]

theorem cmod_natCast_of_lt {a b : Nat} (h : a < b) : cmod (a : Int) (b : Int) = (a : Int) :=
  Int.tmod_eq_of_lt (Int.ofNat_nonneg a) (by exact_mod_cast h)

/-- C12. Export layout and accessor agree: for a table of at least
`tile_size*tile_size*spp` points of dimension `dim` and indices `f < nb_frames`,
`i, j < tile_size`, `s < spp`, `d < dim` (so all extents are positive), the exported tile
has `nb_frames` frames of `tile_size` rows of exactly `tile_size*spp*dim` values, and the
element `tile[f][i][j*spp*dim + s*dim + d]`, which is what the emitted accessor
`sample(f, i, j, s, d)` returns, is the value written from
`points[(i*tile_size + j)*spp + s][d]`. -/
theorem export_layout_matches_accessor (points : List (List α))
    (tile_size spp nb_frames dim : Nat)
    (hlen : tile_size * tile_size * spp ≤ points.length) (hdim : ∀ p ∈ points, p.length = dim)
    (f i j s d : Nat) (hf : f < nb_frames) (hi : i < tile_size) (hj : j < tile_size)
    (hs : s < spp) (hd : d < dim) :
    (export_tile points tile_size spp nb_frames).length = nb_frames ∧
    (∀ frame ∈ export_tile points tile_size spp nb_frames,
      frame.length = tile_size ∧ ∀ row ∈ frame, row.length = tile_size * spp * dim) ∧
    ∃ (p : List α) (x : α) (frame : List (List α)) (row : List α),
      points[(i * tile_size + j) * spp + s]? = some p ∧ p[d]? = some x ∧
      (export_tile points tile_size spp nb_frames)[f]? = some frame ∧
      frame[i]? = some row ∧ row[j * spp * dim + s * dim + d]? = some x ∧
      sample (export_tile points tile_size spp nb_frames) nb_frames tile_size spp dim
        f i j s d = some x := by
  have hidx : (i * tile_size + j) * spp + s < points.length := by
    have h1 : i * tile_size + j + 1 ≤ tile_size * tile_size := by
      have : (i + 1) * tile_size ≤ tile_size * tile_size := Nat.mul_le_mul_right tile_size hi
      rw [Nat.add_mul, Nat.one_mul] at this
      omega
    have h2 : (i * tile_size + j + 1) * spp ≤ tile_size * tile_size * spp :=
      Nat.mul_le_mul_right spp h1
    rw [Nat.add_mul, Nat.one_mul] at h2
    omega
  have hhead : (points.headD []).length = dim := headD_length_of_forall (by omega) hdim
  have hp : points[(i * tile_size + j) * spp + s]? = some points[(i * tile_size + j) * spp + s] :=
    List.getElem?_eq_getElem hidx
  have hpl : points[(i * tile_size + j) * spp + s].length = dim := hdim _ (List.getElem_mem hidx)
  have hdl : d < points[(i * tile_size + j) * spp + s].length := by omega
  have hx : points[(i * tile_size + j) * spp + s][d]? =
      some points[(i * tile_size + j) * spp + s][d] := List.getElem?_eq_getElem hdl
  have hval : (points.getD ((i * tile_size + j) * spp + s) []).getD d 0 =
      points[(i * tile_size + j) * spp + s][d] := by
    rw [getD_eq_of_getElem? [] hp, getD_eq_of_getElem? 0 hx]
  have hframe := export_tile_getElem? points tile_size spp nb_frames f hf
  rw [hhead] at hframe
  have hrow : ((List.range tile_size).map fun i => export_row points tile_size spp dim i)[i]? =
      some (export_row points tile_size spp dim i) := by
    rw [List.getElem?_map, List.getElem?_range hi]
    rfl
  have hcell := export_row_getElem? points tile_size spp dim i j s d hj hs hd
  rw [hval] at hcell
  refine ⟨by simp [export_tile], ?_, points[(i * tile_size + j) * spp + s],
    points[(i * tile_size + j) * spp + s][d], _, _, hp, hx, hframe, hrow, hcell, ?_⟩
  · intro frame hfr
    unfold export_tile at hfr
    obtain ⟨_, _, rfl⟩ := List.mem_map.mp hfr
    refine ⟨by simp, ?_⟩
    intro row hr
    obtain ⟨r, _, rfl⟩ := List.mem_map.mp hr
    rw [hhead]
    exact export_row_length points tile_size spp dim r
  · have e3 : ((j : Int) * (spp : Int) * (dim : Int) + (s : Int) * (dim : Int) + (d : Int)) =
        ((j * spp * dim + s * dim + d : Nat) : Int) := by push_cast; ring
    simp only [sample, sample_subscripts, cmod_natCast_of_lt hf, cmod_natCast_of_lt hi,
      cmod_natCast_of_lt hj, cmod_natCast_of_lt hs, cmod_natCast_of_lt hd, e3,
      arrayRead_natCast, hframe, Option.some_bind, hrow, hcell]

/-- C12, on the tile exported from `examplePoints` with `tile_size = 4`, `spp = 2`,
`nb_frames = 1`, `dim = 2`, at `f = 0`, `i = 1`, `j = 2`, `s = 1`, `d = 0`: the accessor
returns component 0 of `points[(1*4 + 2)*2 + 1] = points[13]`. -/
theorem export_layout_matches_accessor_witness :
    ∃ (p : List ℚ) (x : ℚ) (frame : List (List ℚ)) (row : List ℚ),
      examplePoints[(1 * 4 + 2) * 2 + 1]? = some p ∧ p[0]? = some x ∧
      (export_tile examplePoints 4 2 1)[0]? = some frame ∧
      frame[1]? = some row ∧ row[2 * 2 * 2 + 1 * 2 + 0]? = some x ∧
      sample (export_tile examplePoints 4 2 1) (1 : ℕ) (4 : ℕ) (2 : ℕ) (2 : ℕ)
        (0 : ℕ) (1 : ℕ) (2 : ℕ) (1 : ℕ) (0 : ℕ) = some x :=
  (export_layout_matches_accessor examplePoints 4 2 1 2
    (by decide)
    (by
      intro p hp
      obtain ⟨n, _, rfl⟩ := List.mem_map.mp hp
      rfl)
    0 1 2 1 0 (by decide) (by decide) (by decide) (by decide) (by decide)).2.2

/-- C19. `export_sampler` writes the same data for every frame: for frame indices
`f, f2 < nb_frames` the block of rows exported for frame `f` is the block exported for
frame `f2`, and for non-negative frame arguments `g`, `g2` the emitted accessor satisfies
`sample(g, i, j, s, d) = sample(g2, i, j, s, d)`. -/
theorem export_same_every_frame (points : List (List α)) (tile_size spp nb_frames : Nat)
    (f f2 : Nat) (hf : f < nb_frames) (hf2 : f2 < nb_frames) :
    (export_tile points tile_size spp nb_frames)[f]? =
        (export_tile points tile_size spp nb_frames)[f2]? ∧
      (∃ frame, (export_tile points tile_size spp nb_frames)[f]? = some frame) ∧
      ∀ (dim g g2 i j s d : Int), 0 ≤ g → 0 ≤ g2 →
        sample (export_tile points tile_size spp nb_frames) nb_frames tile_size spp dim
            g i j s d =
          sample (export_tile points tile_size spp nb_frames) nb_frames tile_size spp dim
            g2 i j s d := by
  have hN : (0 : Int) < (nb_frames : Int) := by exact_mod_cast (by omega : 0 < nb_frames)
  have key : ∀ g : Int, 0 ≤ g →
      arrayRead (export_tile points tile_size spp nb_frames) (cmod g nb_frames) =
        some ((List.range tile_size).map fun i =>
          export_row points tile_size spp (points.headD []).length i) := by
    intro g hg
    have h0 := cmod_nonneg (nb_frames : Int) hg
    have h1 := cmod_lt g hN
    unfold arrayRead
    rw [if_pos h0]
    exact export_tile_getElem? points tile_size spp nb_frames _ (by omega)
  refine ⟨?_, ⟨_, export_tile_getElem? points tile_size spp nb_frames f hf⟩, ?_⟩
  · rw [export_tile_getElem? points tile_size spp nb_frames f hf,
      export_tile_getElem? points tile_size spp nb_frames f2 hf2]
  · intro dim g g2 i j s d hg hg2
    simp only [sample, sample_subscripts, key g hg, key g2 hg2]

/-- C19, on the tile exported from `examplePoints` with three frames: frames 0 and 2
hold the same block, and `sample(5, 1, 2, 1, 0) = sample(0, 1, 2, 1, 0)`. -/
theorem export_same_every_frame_witness :
    (export_tile examplePoints 4 2 3)[0]? = (export_tile examplePoints 4 2 3)[2]? ∧
      sample (export_tile examplePoints 4 2 3) (3 : ℕ) (4 : ℕ) (2 : ℕ) 2 5 1 2 1 0 =
        sample (export_tile examplePoints 4 2 3) (3 : ℕ) (4 : ℕ) (2 : ℕ) 2 0 1 2 1 0 :=
  ⟨(export_same_every_frame examplePoints 4 2 3 0 2 (by decide) (by decide)).1,
    (export_same_every_frame examplePoints 4 2 3 0 2 (by decide) (by decide)).2.2
      2 5 0 1 2 1 0 (by decide) (by decide)⟩

end Exporter

/-! ## Theorems: floating-point reading -/

section FloatingPoint

theorem roundHalfEven_eq [FloorRing α] (y : α) (n : Int) (h1 : (n : α) - 1 / 2 < y)
    (h2 : y < (n : α) + 1 / 2) : roundHalfEven y = n := by
  unfold roundHalfEven
  by_cases hy : (n : α) ≤ y
  · have hfl : ⌊y⌋ = n := Int.floor_eq_iff.mpr ⟨hy, by linarith⟩
    rw [hfl, if_pos (by linarith)]
  · have hfl : ⌊y⌋ = n - 1 :=
      Int.floor_eq_iff.mpr ⟨by push_cast; linarith, by push_cast; linarith⟩
    rw [hfl]
    have h3 : ¬ (y - ((n - 1 : Int) : α) < 1 / 2) := by push_cast; linarith
    have h4 : (1 : α) / 2 < y - ((n - 1 : Int) : α) := by push_cast; linarith
    rw [if_neg h3, if_pos h4]
    omega

/-- Evaluation of a rounding away from ties: when `2^E ≤ |x| < 2^(E+1)`, the unit in the
last place is `2^K` with `K = max E emin - (p - 1)`, and `x` is strictly within half a
unit of `n * 2^K`, the rounding of `x` is `n * 2^K`. -/
theorem roundBinary_eval [FloorRing α] (p : Nat) (emin : Int) (x v : α) (E K n : Int)
    (hK : K = max E emin - ((p : Int) - 1)) (hv : v = (n : α) * (2 : α) ^ K)
    (hE1 : (2 : α) ^ E ≤ x ∨ (2 : α) ^ E ≤ -x)
    (hE2 : x < (2 : α) ^ (E + 1) ∧ -x < (2 : α) ^ (E + 1))
    (h1 : ((n : α) - 1 / 2) * (2 : α) ^ K < x) (h2 : x < ((n : α) + 1 / 2) * (2 : α) ^ K) :
    roundBinary p emin x = v := by
  have hE1a : (2 : α) ^ E ≤ |x| := by
    rcases hE1 with h | h
    · exact h.trans (le_abs_self x)
    · exact h.trans (neg_le_abs x)
  have hE2a : |x| < (2 : α) ^ (E + 1) := abs_lt.mpr ⟨by linarith [hE2.2], hE2.1⟩
  have hx : 0 < |x| := lt_of_lt_of_le (zpow_pos (by norm_num) E) hE1a
  have hlog : Int.log 2 |x| = E := by
    have a1 : E ≤ Int.log 2 |x| :=
      (Int.zpow_le_iff_le_log (by norm_num) hx).mp (by exact_mod_cast hE1a)
    have a2 : Int.log 2 |x| < E + 1 :=
      (Int.lt_zpow_iff_log_lt (by norm_num) hx).mp (by exact_mod_cast hE2a)
    omega
  have hpos : (0 : α) < (2 : α) ^ K := zpow_pos (by norm_num) K
  unfold roundBinary
  simp only [hlog, ← hK]
  rw [roundHalfEven_eq (x / (2 : α) ^ K) n (by rw [lt_div_iff₀ hpos]; exact h1)
    (by rw [div_lt_iff₀ hpos]; exact h2), hv]

theorem roundBinary_eval_zero [FloorRing α] (p : Nat) (emin : Int) (x : α) (hx : x = 0) :
    roundBinary p emin x = 0 := by
  subst hx
  simp only [roundBinary, zero_div]
  rw [roundHalfEven_eq (0 : α) 0 (by norm_num) (by norm_num)]
  simp

theorem binary64_eval [FloorRing α] (x v : α) (E K n : Int)
    (hK : K = max E (-1022) - (((53 : Nat) : Int) - 1)) (hv : v = (n : α) * (2 : α) ^ K)
    (hE1 : (2 : α) ^ E ≤ x ∨ (2 : α) ^ E ≤ -x)
    (hE2 : x < (2 : α) ^ (E + 1) ∧ -x < (2 : α) ^ (E + 1))
    (h1 : ((n : α) - 1 / 2) * (2 : α) ^ K < x) (h2 : x < ((n : α) + 1 / 2) * (2 : α) ^ K) :
    binary64 x = v :=
  roundBinary_eval 53 (-1022) x v E K n hK hv hE1 hE2 h1 h2

theorem binary32_eval [FloorRing α] (x v : α) (E K n : Int)
    (hK : K = max E (-126) - (((24 : Nat) : Int) - 1)) (hv : v = (n : α) * (2 : α) ^ K)
    (hE1 : (2 : α) ^ E ≤ x ∨ (2 : α) ^ E ≤ -x)
    (hE2 : x < (2 : α) ^ (E + 1) ∧ -x < (2 : α) ^ (E + 1))
    (h1 : ((n : α) - 1 / 2) * (2 : α) ^ K < x) (h2 : x < ((n : α) + 1 / 2) * (2 : α) ^ K) :
    binary32 x = v :=
  roundBinary_eval 24 (-126) x v E K n hK hv hE1 hE2 h1 h2

theorem binary64_eval_zero [FloorRing α] (x : α) (hx : x = 0) : binary64 x = 0 :=
  roundBinary_eval_zero 53 (-1022) x hx

theorem binary32_eval_zero [FloorRing α] (x : α) (hx : x = 0) : binary32 x = 0 :=
  roundBinary_eval_zero 24 (-126) x hx

/-- Evaluation of the rounding to `double` of a square root, from bounds on the
radicand. -/
theorem binary64_sqrt_eval (S v : ℝ) (E K n : Int)
    (hK : K = max E (-1022) - (((53 : Nat) : Int) - 1)) (hv : v = (n : ℝ) * (2 : ℝ) ^ K)
    (hn : 0 ≤ ((n : ℝ) - 1 / 2) * (2 : ℝ) ^ K)
    (hE1 : ((2 : ℝ) ^ E) ^ 2 ≤ S) (hE2 : S < ((2 : ℝ) ^ (E + 1)) ^ 2)
    (h1 : (((n : ℝ) - 1 / 2) * (2 : ℝ) ^ K) ^ 2 < S)
    (h2 : S < (((n : ℝ) + 1 / 2) * (2 : ℝ) ^ K) ^ 2) :
    binary64 (Real.sqrt S) = v := by
  have hp1 : (0 : ℝ) < (2 : ℝ) ^ E := zpow_pos (by norm_num) E
  have hp2 : (0 : ℝ) < (2 : ℝ) ^ (E + 1) := zpow_pos (by norm_num) (E + 1)
  have hpK : (0 : ℝ) < (2 : ℝ) ^ K := zpow_pos (by norm_num) K
  have hup : (0 : ℝ) < ((n : ℝ) + 1 / 2) * (2 : ℝ) ^ K := by
    have : ((n : ℝ) - 1 / 2) * (2 : ℝ) ^ K < ((n : ℝ) + 1 / 2) * (2 : ℝ) ^ K := by
      apply mul_lt_mul_of_pos_right _ hpK
      linarith
    linarith
  refine binary64_eval (Real.sqrt S) v E K n hK hv (Or.inl ((Real.le_sqrt' hp1).mpr hE1))
    ⟨(Real.sqrt_lt' hp2).mpr hE2, ?_⟩ ((Real.lt_sqrt hn).mpr h1) ((Real.sqrt_lt' hup).mpr h2)
  linarith [Real.sqrt_nonneg S]

/-! ### Without rounding the floating-point reading is the exact one -/

theorem toroidal_minus_axis_fl_exact (a b : α) :
    toroidal_minus_axis_fl id a b = toroidal_minus_axis a b := rfl

theorem toroidal_minus_fl_exact (v1 v2 : List α) :
    toroidal_minus_fl id v1 v2 = toroidal_minus v1 v2 := rfl

theorem toroidal_norm_axis_fl_exact (a b : α) :
    toroidal_norm_axis_fl id a b = toroidal_norm_axis a b := rfl

theorem foldl_sq_eq_sum (l : List α) (acc : α) :
    l.foldl (fun acc x => id (acc + id (x * x))) acc = acc + (l.map fun x => x ^ 2).sum := by
  induction l generalizing acc with
  | nil => simp
  | cons a t ih =>
    rw [List.foldl_cons, ih]
    simp only [List.map_cons, List.sum_cons, id]
    ring

theorem norm_fl_exact (sqrt : α → α) (v : List α) :
    VecX.norm_fl id sqrt v = VecX.norm sqrt v := by
  unfold VecX.norm_fl VecX.norm
  rw [foldl_sq_eq_sum, zero_add]
  rfl

theorem toroidal_norm_fl_exact (sqrt : α → α) (v1 v2 : List α) :
    toroidal_norm_fl id id sqrt v1 v2 = toroidal_norm sqrt v1 v2 := by
  unfold toroidal_norm_fl toroidal_norm
  rw [norm_fl_exact]
  rfl

theorem stratified_theta_fl_exact (m k : Nat) (u : α) :
    stratified_theta_fl id id m k u = ((k : α) / (m : α) + u / (m : α)) * 2 * PI := rfl

theorem chooseDirection_fl_exact (E : Engine σ α) (cos sin : α → α) (dim m k : Nat)
    (v : List α) (s : σ) :
    chooseDirection_fl id id E cos sin dim m k v s = chooseDirection E cos sin dim m k v s := rfl

/-! ### Evaluation of the loop bodies from the roundings of their steps -/

theorem toroidal_minus_axis_fl_eval (d : α → α) (a b raw p1 m1 res1 res2 : α)
    (h1 : d (a - b) = raw) (h2 : d (raw + 1) = p1)
    (h3 : (if 1 > p1 ∧ 0 ≤ p1 then p1 else raw) = res1) (h4 : d (raw - 1) = m1)
    (h5 : (if 1 > m1 ∧ 0 ≤ m1 then m1 else res1) = res2) :
    toroidal_minus_axis_fl d a b = res2 := by
  unfold toroidal_minus_axis_fl
  simp only [h1, h2, h3, h4, h5]

theorem toroidal_norm_axis_fl_eval (d : α → α) (a b raw p1 m1 s0 sp res1 s1 sm res2 : α)
    (h1 : d (a - b) = raw) (h2 : d (raw + 1) = p1) (h3 : d (raw ^ 2) = s0)
    (h4 : d (p1 ^ 2) = sp) (h5 : (if s0 > sp then p1 else raw) = res1)
    (h6 : d (raw - 1) = m1) (h7 : d (res1 ^ 2) = s1) (h8 : d (m1 ^ 2) = sm)
    (h9 : (if s1 > sm then m1 else res1) = res2) :
    toroidal_norm_axis_fl d a b = res2 := by
  unfold toroidal_norm_axis_fl
  simp only [h1, h2, h3, h4, h5, h6, h7, h8, h9]

theorem toroidal_minus_fl_singleton (d : α → α) (a b : α) :
    toroidal_minus_fl d [a] [b] = [toroidal_minus_axis_fl d a b] := rfl

theorem toroidal_norm_fl_singleton (d f sqrt : α → α) (a b : α) :
    toroidal_norm_fl d f sqrt [a] [b] =
      f (d (sqrt (d (0 + d (toroidal_norm_axis_fl d a b * toroidal_norm_axis_fl d a b))))) :=
  rfl

theorem toroidal_norm_fl_five (d f sqrt : α → α) (a b : α) :
    toroidal_norm_fl d f sqrt [a, a, a, a, a] [b, b, b, b, b] =
      f (d (sqrt (d (d (d (d (d (0 + d (toroidal_norm_axis_fl d a b * toroidal_norm_axis_fl d a b))
        + d (toroidal_norm_axis_fl d a b * toroidal_norm_axis_fl d a b))
        + d (toroidal_norm_axis_fl d a b * toroidal_norm_axis_fl d a b))
        + d (toroidal_norm_axis_fl d a b * toroidal_norm_axis_fl d a b))
        + d (toroidal_norm_axis_fl d a b * toroidal_norm_axis_fl d a b))))) :=
  rfl

/-! ### Roundings at concrete inputs -/

/-- With `double` operations, at `a = 0`, `b = 2^-60`: the difference `-2^-60` is exact, `raw + 1` rounds to `1`, the test `1 > raw + 1` fails, and the body returns `raw = -2^-60`. -/
theorem toroidal_minus_axis_fl_tiny_negative :
    toroidal_minus_axis_fl binary64 (0 : ℝ) (1 / 2 ^ 60) = (-(1 / 2 ^ 60)) :=
  toroidal_minus_axis_fl_eval binary64 0 (1 / 2 ^ 60) (-(1 / 2 ^ 60)) 1 (-1) (-(1 / 2 ^ 60)) (-(1 / 2 ^ 60))
    (binary64_eval _ _ (-60) (-112) (-4503599627370496) (by decide) (by norm_num) (Or.inr (by norm_num))
      ⟨by norm_num, by norm_num⟩ (by norm_num) (by norm_num))
    (binary64_eval _ _ (-1) (-53) 9007199254740992 (by decide) (by norm_num) (Or.inl (by norm_num))
      ⟨by norm_num, by norm_num⟩ (by norm_num) (by norm_num))
    (if_neg (by norm_num))
    (binary64_eval _ _ 0 (-52) (-4503599627370496) (by decide) (by norm_num) (Or.inr (by norm_num))
      ⟨by norm_num, by norm_num⟩ (by norm_num) (by norm_num))
    (if_neg (by norm_num))

/-- The component kept by the `double` loop body of `toroidal_norm` at `a = 0`, `b = 1/2^200`. -/
theorem toroidal_norm_axis_fl_underflow :
    toroidal_norm_axis_fl binary64 (0 : ℝ) (1 / 2 ^ 200) = (-(1 / 2 ^ 200)) :=
  toroidal_norm_axis_fl_eval binary64 0 (1 / 2 ^ 200) (-(1 / 2 ^ 200)) 1 (-1) (1 / 2 ^ 400) 1 (-(1 / 2 ^ 200)) (1 / 2 ^ 400) 1 (-(1 / 2 ^ 200))
    (binary64_eval _ _ (-200) (-252) (-4503599627370496) (by decide) (by norm_num) (Or.inr (by norm_num))
      ⟨by norm_num, by norm_num⟩ (by norm_num) (by norm_num))
    (binary64_eval _ _ (-1) (-53) 9007199254740992 (by decide) (by norm_num) (Or.inl (by norm_num))
      ⟨by norm_num, by norm_num⟩ (by norm_num) (by norm_num))
    (binary64_eval _ _ (-400) (-452) 4503599627370496 (by decide) (by norm_num) (Or.inl (by norm_num))
      ⟨by norm_num, by norm_num⟩ (by norm_num) (by norm_num))
    (binary64_eval _ _ 0 (-52) 4503599627370496 (by decide) (by norm_num) (Or.inl (by norm_num))
      ⟨by norm_num, by norm_num⟩ (by norm_num) (by norm_num))
    (if_neg (by norm_num))
    (binary64_eval _ _ 0 (-52) (-4503599627370496) (by decide) (by norm_num) (Or.inr (by norm_num))
      ⟨by norm_num, by norm_num⟩ (by norm_num) (by norm_num))
    (binary64_eval _ _ (-400) (-452) 4503599627370496 (by decide) (by norm_num) (Or.inl (by norm_num))
      ⟨by norm_num, by norm_num⟩ (by norm_num) (by norm_num))
    (binary64_eval _ _ 0 (-52) 4503599627370496 (by decide) (by norm_num) (Or.inl (by norm_num))
      ⟨by norm_num, by norm_num⟩ (by norm_num) (by norm_num))
    (if_neg (by norm_num))

/-- With `double` operations and the `float` return, the distance of `[0]` and `[2^-200]` is `0`: the norm `2^-200` is below half the least positive `float`. -/
theorem toroidal_norm_fl_underflow :
    toroidal_norm_fl binary64 binary32 Real.sqrt [(0 : ℝ)] [(1 / 2 ^ 200)] = 0 := by
  have hxx : binary64 (((-(1 / 2 ^ 200)) : ℝ) * (-(1 / 2 ^ 200))) = (1 / 2 ^ 400) :=
    (binary64_eval _ _ (-400) (-452) 4503599627370496 (by decide) (by norm_num) (Or.inl (by norm_num))
      ⟨by norm_num, by norm_num⟩ (by norm_num) (by norm_num))
  have hacc : binary64 ((0 : ℝ) + (1 / 2 ^ 400)) = (1 / 2 ^ 400) :=
    (binary64_eval _ _ (-400) (-452) 4503599627370496 (by decide) (by norm_num) (Or.inl (by norm_num))
      ⟨by norm_num, by norm_num⟩ (by norm_num) (by norm_num))
  have hsq : binary64 (Real.sqrt (1 / 2 ^ 400)) = (1 / 2 ^ 200) :=
    (binary64_sqrt_eval _ _ (-200) (-252) 4503599627370496 (by decide) (by norm_num) (by norm_num)
      (by norm_num) (by norm_num) (by norm_num) (by norm_num))
  have hfl : binary32 ((1 / 2 ^ 200) : ℝ) = 0 :=
    (binary32_eval _ _ (-200) (-149) 0 (by decide) (by norm_num) (Or.inl (by norm_num))
      ⟨by norm_num, by norm_num⟩ (by norm_num) (by norm_num))
  rw [toroidal_norm_fl_singleton, toroidal_norm_axis_fl_underflow, hxx, hacc, hsq, hfl]

/-- With `double` operations, at `a = 0`, `b = 3/4 - 2^-28`: the body of `toroidal_minus` returns `raw + 1 = 1/4 + 2^-28`, computed exactly. -/
theorem toroidal_minus_axis_fl_wrap :
    toroidal_minus_axis_fl binary64 (0 : ℝ) (201326591 / 2 ^ 28) = (67108865 / 2 ^ 28) :=
  toroidal_minus_axis_fl_eval binary64 0 (201326591 / 2 ^ 28) (-(201326591 / 2 ^ 28)) (67108865 / 2 ^ 28) (-(469762047 / 2 ^ 28)) (67108865 / 2 ^ 28) (67108865 / 2 ^ 28)
    (binary64_eval _ _ (-1) (-53) (-6755399407501312) (by decide) (by norm_num) (Or.inr (by norm_num))
      ⟨by norm_num, by norm_num⟩ (by norm_num) (by norm_num))
    (binary64_eval _ _ (-2) (-54) 4503599694479360 (by decide) (by norm_num) (Or.inl (by norm_num))
      ⟨by norm_num, by norm_num⟩ (by norm_num) (by norm_num))
    (if_pos (by norm_num))
    (binary64_eval _ _ 0 (-52) (-7881299331121152) (by decide) (by norm_num) (Or.inr (by norm_num))
      ⟨by norm_num, by norm_num⟩ (by norm_num) (by norm_num))
    (if_neg (by norm_num))

/-- The component kept by the `double` loop body of `toroidal_norm` at `a = 0`, `b = 201326591/2^28`. -/
theorem toroidal_norm_axis_fl_wrap :
    toroidal_norm_axis_fl binary64 (0 : ℝ) (201326591 / 2 ^ 28) = (67108865 / 2 ^ 28) :=
  toroidal_norm_axis_fl_eval binary64 0 (201326591 / 2 ^ 28) (-(201326591 / 2 ^ 28)) (67108865 / 2 ^ 28) (-(469762047 / 2 ^ 28)) (301989885 / 2 ^ 29) (4503599761588225 / 2 ^ 56) (67108865 / 2 ^ 28) (4503599761588225 / 2 ^ 56) (1644167161 / 2 ^ 29) (67108865 / 2 ^ 28)
    (binary64_eval _ _ (-1) (-53) (-6755399407501312) (by decide) (by norm_num) (Or.inr (by norm_num))
      ⟨by norm_num, by norm_num⟩ (by norm_num) (by norm_num))
    (binary64_eval _ _ (-2) (-54) 4503599694479360 (by decide) (by norm_num) (Or.inl (by norm_num))
      ⟨by norm_num, by norm_num⟩ (by norm_num) (by norm_num))
    (binary64_eval _ _ (-1) (-53) 5066549530460160 (by decide) (by norm_num) (Or.inl (by norm_num))
      ⟨by norm_num, by norm_num⟩ (by norm_num) (by norm_num))
    (binary64_eval _ _ (-4) (-56) 4503599761588225 (by decide) (by norm_num) (Or.inl (by norm_num))
      ⟨by norm_num, by norm_num⟩ (by norm_num) (by norm_num))
    (if_pos (by norm_num))
    (binary64_eval _ _ 0 (-52) (-7881299331121152) (by decide) (by norm_num) (Or.inr (by norm_num))
      ⟨by norm_num, by norm_num⟩ (by norm_num) (by norm_num))
    (binary64_eval _ _ (-4) (-56) 4503599761588225 (by decide) (by norm_num) (Or.inl (by norm_num))
      ⟨by norm_num, by norm_num⟩ (by norm_num) (by norm_num))
    (binary64_eval _ _ 1 (-51) 6896136900050944 (by decide) (by norm_num) (Or.inl (by norm_num))
      ⟨by norm_num, by norm_num⟩ (by norm_num) (by norm_num))
    (if_neg (by norm_num))

/-- With `double` operations and the `float` return, the distance of `[0]` and `[3/4 - 2^-28]` is `1/4`: the norm `1/4 + 2^-28` is not a `float` and rounds down. -/
theorem toroidal_norm_fl_wrap :
    toroidal_norm_fl binary64 binary32 Real.sqrt [(0 : ℝ)] [(201326591 / 2 ^ 28)] = (1 / 2 ^ 2) := by
  have hxx : binary64 (((67108865 / 2 ^ 28) : ℝ) * (67108865 / 2 ^ 28)) = (4503599761588225 / 2 ^ 56) :=
    (binary64_eval _ _ (-4) (-56) 4503599761588225 (by decide) (by norm_num) (Or.inl (by norm_num))
      ⟨by norm_num, by norm_num⟩ (by norm_num) (by norm_num))
  have hacc : binary64 ((0 : ℝ) + (4503599761588225 / 2 ^ 56)) = (4503599761588225 / 2 ^ 56) :=
    (binary64_eval _ _ (-4) (-56) 4503599761588225 (by decide) (by norm_num) (Or.inl (by norm_num))
      ⟨by norm_num, by norm_num⟩ (by norm_num) (by norm_num))
  have hsq : binary64 (Real.sqrt (4503599761588225 / 2 ^ 56)) = (67108865 / 2 ^ 28) :=
    (binary64_sqrt_eval _ _ (-2) (-54) 4503599694479360 (by decide) (by norm_num) (by norm_num)
      (by norm_num) (by norm_num) (by norm_num) (by norm_num))
  have hfl : binary32 ((67108865 / 2 ^ 28) : ℝ) = (1 / 2 ^ 2) :=
    (binary32_eval _ _ (-2) (-25) 8388608 (by decide) (by norm_num) (Or.inl (by norm_num))
      ⟨by norm_num, by norm_num⟩ (by norm_num) (by norm_num))
  rw [toroidal_norm_fl_singleton, toroidal_norm_axis_fl_wrap, hxx, hacc, hsq, hfl]

/-- The component kept by the `double` loop body of `toroidal_norm` at `a = 0`, `b = 67108869/2^28`. -/
theorem toroidal_norm_axis_fl_far :
    toroidal_norm_axis_fl binary64 (0 : ℝ) (67108869 / 2 ^ 28) = (-(67108869 / 2 ^ 28)) :=
  toroidal_norm_axis_fl_eval binary64 0 (67108869 / 2 ^ 28) (-(67108869 / 2 ^ 28)) (201326587 / 2 ^ 28) (-(335544325 / 2 ^ 28)) (4503600298459161 / 2 ^ 56) (5066549329133571 / 2 ^ 53) (-(67108869 / 2 ^ 28)) (4503600298459161 / 2 ^ 56) (3518437313740801 / 2 ^ 51) (-(67108869 / 2 ^ 28))
    (binary64_eval _ _ (-2) (-54) (-4503599962914816) (by decide) (by norm_num) (Or.inr (by norm_num))
      ⟨by norm_num, by norm_num⟩ (by norm_num) (by norm_num))
    (binary64_eval _ _ (-1) (-53) 6755399273283584 (by decide) (by norm_num) (Or.inl (by norm_num))
      ⟨by norm_num, by norm_num⟩ (by norm_num) (by norm_num))
    (binary64_eval _ _ (-4) (-56) 4503600298459161 (by decide) (by norm_num) (Or.inl (by norm_num))
      ⟨by norm_num, by norm_num⟩ (by norm_num) (by norm_num))
    (binary64_eval _ _ (-1) (-53) 5066549329133571 (by decide) (by norm_num) (Or.inl (by norm_num))
      ⟨by norm_num, by norm_num⟩ (by norm_num) (by norm_num))
    (if_neg (by norm_num))
    (binary64_eval _ _ 0 (-52) (-5629499618099200) (by decide) (by norm_num) (Or.inr (by norm_num))
      ⟨by norm_num, by norm_num⟩ (by norm_num) (by norm_num))
    (binary64_eval _ _ (-4) (-56) 4503600298459161 (by decide) (by norm_num) (Or.inl (by norm_num))
      ⟨by norm_num, by norm_num⟩ (by norm_num) (by norm_num))
    (binary64_eval _ _ 0 (-52) 7036874627481602 (by decide) (by norm_num) (Or.inl (by norm_num))
      ⟨by norm_num, by norm_num⟩ (by norm_num) (by norm_num))
    (if_neg (by norm_num))

/-- With `double` operations and the `float` return, the distance of `[0]` and `[1/4 + 5*2^-28]` is `1/4 + 2^-25` (rounded up). -/
theorem toroidal_norm_fl_far :
    toroidal_norm_fl binary64 binary32 Real.sqrt [(0 : ℝ)] [(67108869 / 2 ^ 28)] = (8388609 / 2 ^ 25) := by
  have hxx : binary64 (((-(67108869 / 2 ^ 28)) : ℝ) * (-(67108869 / 2 ^ 28))) = (4503600298459161 / 2 ^ 56) :=
    (binary64_eval _ _ (-4) (-56) 4503600298459161 (by decide) (by norm_num) (Or.inl (by norm_num))
      ⟨by norm_num, by norm_num⟩ (by norm_num) (by norm_num))
  have hacc : binary64 ((0 : ℝ) + (4503600298459161 / 2 ^ 56)) = (4503600298459161 / 2 ^ 56) :=
    (binary64_eval _ _ (-4) (-56) 4503600298459161 (by decide) (by norm_num) (Or.inl (by norm_num))
      ⟨by norm_num, by norm_num⟩ (by norm_num) (by norm_num))
  have hsq : binary64 (Real.sqrt (4503600298459161 / 2 ^ 56)) = (67108869 / 2 ^ 28) :=
    (binary64_sqrt_eval _ _ (-2) (-54) 4503599962914816 (by decide) (by norm_num) (by norm_num)
      (by norm_num) (by norm_num) (by norm_num) (by norm_num))
  have hfl : binary32 ((67108869 / 2 ^ 28) : ℝ) = (8388609 / 2 ^ 25) :=
    (binary32_eval _ _ (-2) (-25) 8388609 (by decide) (by norm_num) (Or.inl (by norm_num))
      ⟨by norm_num, by norm_num⟩ (by norm_num) (by norm_num))
  rw [toroidal_norm_fl_singleton, toroidal_norm_axis_fl_far, hxx, hacc, hsq, hfl]

/-- The component kept by the `double` loop body of `toroidal_norm` at `a = 0`, `b = 1/2^26`. -/
theorem toroidal_norm_axis_fl_near :
    toroidal_norm_axis_fl binary64 (0 : ℝ) (1 / 2 ^ 26) = (-(1 / 2 ^ 26)) :=
  toroidal_norm_axis_fl_eval binary64 0 (1 / 2 ^ 26) (-(1 / 2 ^ 26)) (67108863 / 2 ^ 26) (-(67108865 / 2 ^ 26)) (1 / 2 ^ 52) (4503599493152769 / 2 ^ 52) (-(1 / 2 ^ 26)) (1 / 2 ^ 52) (4503599761588225 / 2 ^ 52) (-(1 / 2 ^ 26))
    (binary64_eval _ _ (-26) (-78) (-4503599627370496) (by decide) (by norm_num) (Or.inr (by norm_num))
      ⟨by norm_num, by norm_num⟩ (by norm_num) (by norm_num))
    (binary64_eval _ _ (-1) (-53) 9007199120523264 (by decide) (by norm_num) (Or.inl (by norm_num))
      ⟨by norm_num, by norm_num⟩ (by norm_num) (by norm_num))
    (binary64_eval _ _ (-52) (-104) 4503599627370496 (by decide) (by norm_num) (Or.inl (by norm_num))
      ⟨by norm_num, by norm_num⟩ (by norm_num) (by norm_num))
    (binary64_eval _ _ (-1) (-53) 9007198986305538 (by decide) (by norm_num) (Or.inl (by norm_num))
      ⟨by norm_num, by norm_num⟩ (by norm_num) (by norm_num))
    (if_neg (by norm_num))
    (binary64_eval _ _ 0 (-52) (-4503599694479360) (by decide) (by norm_num) (Or.inr (by norm_num))
      ⟨by norm_num, by norm_num⟩ (by norm_num) (by norm_num))
    (binary64_eval _ _ (-52) (-104) 4503599627370496 (by decide) (by norm_num) (Or.inl (by norm_num))
      ⟨by norm_num, by norm_num⟩ (by norm_num) (by norm_num))
    (binary64_eval _ _ 0 (-52) 4503599761588225 (by decide) (by norm_num) (Or.inl (by norm_num))
      ⟨by norm_num, by norm_num⟩ (by norm_num) (by norm_num))
    (if_neg (by norm_num))

/-- With `double` operations and the `float` return, the distance of `[0]` and `[2^-26]` is `2^-26` (exact). -/
theorem toroidal_norm_fl_near :
    toroidal_norm_fl binary64 binary32 Real.sqrt [(0 : ℝ)] [(1 / 2 ^ 26)] = (1 / 2 ^ 26) := by
  have hxx : binary64 (((-(1 / 2 ^ 26)) : ℝ) * (-(1 / 2 ^ 26))) = (1 / 2 ^ 52) :=
    (binary64_eval _ _ (-52) (-104) 4503599627370496 (by decide) (by norm_num) (Or.inl (by norm_num))
      ⟨by norm_num, by norm_num⟩ (by norm_num) (by norm_num))
  have hacc : binary64 ((0 : ℝ) + (1 / 2 ^ 52)) = (1 / 2 ^ 52) :=
    (binary64_eval _ _ (-52) (-104) 4503599627370496 (by decide) (by norm_num) (Or.inl (by norm_num))
      ⟨by norm_num, by norm_num⟩ (by norm_num) (by norm_num))
  have hsq : binary64 (Real.sqrt (1 / 2 ^ 52)) = (1 / 2 ^ 26) :=
    (binary64_sqrt_eval _ _ (-26) (-78) 4503599627370496 (by decide) (by norm_num) (by norm_num)
      (by norm_num) (by norm_num) (by norm_num) (by norm_num))
  have hfl : binary32 ((1 / 2 ^ 26) : ℝ) = (1 / 2 ^ 26) :=
    (binary32_eval _ _ (-26) (-49) 8388608 (by decide) (by norm_num) (Or.inl (by norm_num))
      ⟨by norm_num, by norm_num⟩ (by norm_num) (by norm_num))
  rw [toroidal_norm_fl_singleton, toroidal_norm_axis_fl_near, hxx, hacc, hsq, hfl]

/-- The component kept by the `double` loop body of `toroidal_norm` at `a = 1/2^26`, `b = 67108869/2^28`. -/
theorem toroidal_norm_axis_fl_mid :
    toroidal_norm_axis_fl binary64 ((1 / 2 ^ 26) : ℝ) (67108869 / 2 ^ 28) = (-(67108865 / 2 ^ 28)) :=
  toroidal_norm_axis_fl_eval binary64 (1 / 2 ^ 26) (67108869 / 2 ^ 28) (-(67108865 / 2 ^ 28)) (201326591 / 2 ^ 28) (-(335544321 / 2 ^ 28)) (4503599761588225 / 2 ^ 56) (301989885 / 2 ^ 29) (-(67108865 / 2 ^ 28)) (4503599761588225 / 2 ^ 56) (838860805 / 2 ^ 29) (-(67108865 / 2 ^ 28))
    (binary64_eval _ _ (-2) (-54) (-4503599694479360) (by decide) (by norm_num) (Or.inr (by norm_num))
      ⟨by norm_num, by norm_num⟩ (by norm_num) (by norm_num))
    (binary64_eval _ _ (-1) (-53) 6755399407501312 (by decide) (by norm_num) (Or.inl (by norm_num))
      ⟨by norm_num, by norm_num⟩ (by norm_num) (by norm_num))
    (binary64_eval _ _ (-4) (-56) 4503599761588225 (by decide) (by norm_num) (Or.inl (by norm_num))
      ⟨by norm_num, by norm_num⟩ (by norm_num) (by norm_num))
    (binary64_eval _ _ (-1) (-53) 5066549530460160 (by decide) (by norm_num) (Or.inl (by norm_num))
      ⟨by norm_num, by norm_num⟩ (by norm_num) (by norm_num))
    (if_neg (by norm_num))
    (binary64_eval _ _ 0 (-52) (-5629499550990336) (by decide) (by norm_num) (Or.inr (by norm_num))
      ⟨by norm_num, by norm_num⟩ (by norm_num) (by norm_num))
    (binary64_eval _ _ (-4) (-56) 4503599761588225 (by decide) (by norm_num) (Or.inl (by norm_num))
      ⟨by norm_num, by norm_num⟩ (by norm_num) (by norm_num))
    (binary64_eval _ _ 0 (-52) 7036874459709440 (by decide) (by norm_num) (Or.inl (by norm_num))
      ⟨by norm_num, by norm_num⟩ (by norm_num) (by norm_num))
    (if_neg (by norm_num))

/-- With `double` operations and the `float` return, the distance of `[2^-26]` and `[1/4 + 5*2^-28]` is `1/4` (rounded down). -/
theorem toroidal_norm_fl_mid :
    toroidal_norm_fl binary64 binary32 Real.sqrt [((1 / 2 ^ 26) : ℝ)] [(67108869 / 2 ^ 28)] = (1 / 2 ^ 2) := by
  have hxx : binary64 (((-(67108865 / 2 ^ 28)) : ℝ) * (-(67108865 / 2 ^ 28))) = (4503599761588225 / 2 ^ 56) :=
    (binary64_eval _ _ (-4) (-56) 4503599761588225 (by decide) (by norm_num) (Or.inl (by norm_num))
      ⟨by norm_num, by norm_num⟩ (by norm_num) (by norm_num))
  have hacc : binary64 ((0 : ℝ) + (4503599761588225 / 2 ^ 56)) = (4503599761588225 / 2 ^ 56) :=
    (binary64_eval _ _ (-4) (-56) 4503599761588225 (by decide) (by norm_num) (Or.inl (by norm_num))
      ⟨by norm_num, by norm_num⟩ (by norm_num) (by norm_num))
  have hsq : binary64 (Real.sqrt (4503599761588225 / 2 ^ 56)) = (67108865 / 2 ^ 28) :=
    (binary64_sqrt_eval _ _ (-2) (-54) 4503599694479360 (by decide) (by norm_num) (by norm_num)
      (by norm_num) (by norm_num) (by norm_num) (by norm_num))
  have hfl : binary32 ((67108865 / 2 ^ 28) : ℝ) = (1 / 2 ^ 2) :=
    (binary32_eval _ _ (-2) (-25) 8388608 (by decide) (by norm_num) (Or.inl (by norm_num))
      ⟨by norm_num, by norm_num⟩ (by norm_num) (by norm_num))
  rw [toroidal_norm_fl_singleton, toroidal_norm_axis_fl_mid, hxx, hacc, hsq, hfl]

/-- The component kept by the `double` loop body of `toroidal_norm` at `a = 0`, `b = 1/2`: the tie between `raw = -1/2` and `raw + 1 = 1/2` keeps `raw`. -/
theorem toroidal_norm_axis_fl_half :
    toroidal_norm_axis_fl binary64 (0 : ℝ) (1 / 2) = (-(1 / 2)) :=
  toroidal_norm_axis_fl_eval binary64 0 (1 / 2) (-(1 / 2)) (1 / 2) (-(3 / 2)) (1 / 2 ^ 2) (1 / 2 ^ 2) (-(1 / 2)) (1 / 2 ^ 2) (9 / 2 ^ 2) (-(1 / 2))
    (binary64_eval _ _ (-1) (-53) (-4503599627370496) (by decide) (by norm_num) (Or.inr (by norm_num))
      ⟨by norm_num, by norm_num⟩ (by norm_num) (by norm_num))
    (binary64_eval _ _ (-1) (-53) 4503599627370496 (by decide) (by norm_num) (Or.inl (by norm_num))
      ⟨by norm_num, by norm_num⟩ (by norm_num) (by norm_num))
    (binary64_eval _ _ (-2) (-54) 4503599627370496 (by decide) (by norm_num) (Or.inl (by norm_num))
      ⟨by norm_num, by norm_num⟩ (by norm_num) (by norm_num))
    (binary64_eval _ _ (-2) (-54) 4503599627370496 (by decide) (by norm_num) (Or.inl (by norm_num))
      ⟨by norm_num, by norm_num⟩ (by norm_num) (by norm_num))
    (if_neg (by norm_num))
    (binary64_eval _ _ 0 (-52) (-6755399441055744) (by decide) (by norm_num) (Or.inr (by norm_num))
      ⟨by norm_num, by norm_num⟩ (by norm_num) (by norm_num))
    (binary64_eval _ _ (-2) (-54) 4503599627370496 (by decide) (by norm_num) (Or.inl (by norm_num))
      ⟨by norm_num, by norm_num⟩ (by norm_num) (by norm_num))
    (binary64_eval _ _ 1 (-51) 5066549580791808 (by decide) (by norm_num) (Or.inl (by norm_num))
      ⟨by norm_num, by norm_num⟩ (by norm_num) (by norm_num))
    (if_neg (by norm_num))

/-- With `double` operations and the `float` return, the distance of the origin and `(1/2, 1/2, 1/2, 1/2, 1/2)` is `9378749/2^23`: the `float` nearest to `sqrt (5/4)` lies above it. -/
theorem toroidal_norm_fl_five_halves :
    toroidal_norm_fl binary64 binary32 Real.sqrt [(0 : ℝ), 0, 0, 0, 0]
      [1 / 2, 1 / 2, 1 / 2, 1 / 2, 1 / 2] = (9378749 / 2 ^ 23) := by
  have hxx : binary64 (((-(1 / 2)) : ℝ) * (-(1 / 2))) = (1 / 2 ^ 2) :=
    (binary64_eval _ _ (-2) (-54) 4503599627370496 (by decide) (by norm_num) (Or.inl (by norm_num))
      ⟨by norm_num, by norm_num⟩ (by norm_num) (by norm_num))
  have hacc0 : binary64 ((0 : ℝ) + (1 / 2 ^ 2)) = (1 / 2 ^ 2) :=
    (binary64_eval _ _ (-2) (-54) 4503599627370496 (by decide) (by norm_num) (Or.inl (by norm_num))
      ⟨by norm_num, by norm_num⟩ (by norm_num) (by norm_num))
  have hacc1 : binary64 (((1 / 2 ^ 2) : ℝ) + (1 / 2 ^ 2)) = (1 / 2) :=
    (binary64_eval _ _ (-1) (-53) 4503599627370496 (by decide) (by norm_num) (Or.inl (by norm_num))
      ⟨by norm_num, by norm_num⟩ (by norm_num) (by norm_num))
  have hacc2 : binary64 (((1 / 2) : ℝ) + (1 / 2 ^ 2)) = (3 / 2 ^ 2) :=
    (binary64_eval _ _ (-1) (-53) 6755399441055744 (by decide) (by norm_num) (Or.inl (by norm_num))
      ⟨by norm_num, by norm_num⟩ (by norm_num) (by norm_num))
  have hacc3 : binary64 (((3 / 2 ^ 2) : ℝ) + (1 / 2 ^ 2)) = 1 :=
    (binary64_eval _ _ 0 (-52) 4503599627370496 (by decide) (by norm_num) (Or.inl (by norm_num))
      ⟨by norm_num, by norm_num⟩ (by norm_num) (by norm_num))
  have hacc4 : binary64 ((1 : ℝ) + (1 / 2 ^ 2)) = (5 / 2 ^ 2) :=
    (binary64_eval _ _ 0 (-52) 5629499534213120 (by decide) (by norm_num) (Or.inl (by norm_num))
      ⟨by norm_num, by norm_num⟩ (by norm_num) (by norm_num))
  have hsq : binary64 (Real.sqrt (5 / 2 ^ 2)) = (629397181890197 / 2 ^ 49) :=
    (binary64_sqrt_eval _ _ 0 (-52) 5035177455121576 (by decide) (by norm_num) (by norm_num)
      (by norm_num) (by norm_num) (by norm_num) (by norm_num))
  have hfl : binary32 ((629397181890197 / 2 ^ 49) : ℝ) = (9378749 / 2 ^ 23) :=
    (binary32_eval _ _ 0 (-23) 9378749 (by decide) (by norm_num) (Or.inl (by norm_num))
      ⟨by norm_num, by norm_num⟩ (by norm_num) (by norm_num))
  have haxis : toroidal_norm_axis_fl binary64 (0 : ℝ) (1 / 2) = (-(1 / 2)) := toroidal_norm_axis_fl_half
  rw [toroidal_norm_fl_five, haxis, hxx, hacc0, hacc1, hacc2, hacc3, hacc4, hsq, hfl]

/-- The `double` constant `PI`: the literal of the source rounds to `884279719003555/2^48`. -/
theorem binary64_PI : binary64 (PI : ℝ) = (884279719003555 / 2 ^ 48) := by
  unfold PI
  exact (binary64_eval _ _ 1 (-51) 7074237752028440 (by decide) (by norm_num) (Or.inl (by norm_num))
    ⟨by norm_num, by norm_num⟩ (by norm_num) (by norm_num))

/-- The angle computed on line 102 for `k = 7`, `m = 10` and the jitter draw `0`:
`float(7)/10` is `11744051/2^24`, below `7/10`, and the angle is `2475983171044211/2^49`. -/
theorem stratified_theta_fl_seven_of_ten :
    stratified_theta_fl binary64 binary32 10 7 (0 : ℝ) = (2475983171044211 / 2 ^ 49) := by
  have h7 : binary32 (((7 : ℕ) : ℝ)) = 7 :=
    (binary32_eval _ _ 2 (-21) 14680064 (by decide) (by norm_num) (Or.inl (by norm_num))
      ⟨by norm_num, by norm_num⟩ (by norm_num) (by norm_num))
  have h10 : binary32 (((10 : ℕ) : ℝ)) = 10 :=
    (binary32_eval _ _ 3 (-20) 10485760 (by decide) (by norm_num) (Or.inl (by norm_num))
      ⟨by norm_num, by norm_num⟩ (by norm_num) (by norm_num))
  have hq : binary32 ((7 : ℝ) / 10) = (11744051 / 2 ^ 24) :=
    (binary32_eval _ _ (-1) (-24) 11744051 (by decide) (by norm_num) (Or.inl (by norm_num))
      ⟨by norm_num, by norm_num⟩ (by norm_num) (by norm_num))
  have hz : binary64 ((0 : ℝ) / 10) = 0 :=
    (binary64_eval_zero _ (by norm_num))
  have hs : binary64 (((11744051 / 2 ^ 24) : ℝ) + 0) = (11744051 / 2 ^ 24) :=
    (binary64_eval _ _ (-1) (-53) 6305039370944512 (by decide) (by norm_num) (Or.inl (by norm_num))
      ⟨by norm_num, by norm_num⟩ (by norm_num) (by norm_num))
  have ht : binary64 (((11744051 / 2 ^ 24) : ℝ) * 2) = (11744051 / 2 ^ 23) :=
    (binary64_eval _ _ 0 (-52) 6305039370944512 (by decide) (by norm_num) (Or.inl (by norm_num))
      ⟨by norm_num, by norm_num⟩ (by norm_num) (by norm_num))
  have hp : binary64 (((11744051 / 2 ^ 23) : ℝ) * (884279719003555 / 2 ^ 48)) = (2475983171044211 / 2 ^ 49) :=
    (binary64_eval _ _ 2 (-50) 4951966342088422 (by decide) (by norm_num) (Or.inl (by norm_num))
      ⟨by norm_num, by norm_num⟩ (by norm_num) (by norm_num))
  unfold stratified_theta_fl
  rw [h7, h10, hq, hz, hs, ht, binary64_PI, hp]

/-- The `double` threshold `0.7` is positive. -/
theorem binary64_threshold_pos : (0 : ℝ) < binary64 (0.7 : ℝ) := by
  have h : binary64 (0.7 : ℝ) = (3152519739159347 / 2 ^ 52) :=
    (binary64_eval _ _ (-1) (-53) 6305039478318694 (by decide) (by norm_num) (Or.inl (by norm_num))
      ⟨by norm_num, by norm_num⟩ (by norm_num) (by norm_num))
  rw [h]
  norm_num

/-! ### The claims that rounding refutes -/

/-- C14, refuted as stated, with the `double` operations of the code: `[0]` and `[2^-60]`
are points of `[0,1)^1` whose coordinates are `double` values; `raw = -2^-60` is negative,
yet `toroidal_minus` returns `raw` itself, which is not in `[0, 1)` and is not `raw + 1`,
because `raw + 1` rounds to `1` and fails the test `1 > raw + 1`. -/
theorem toroidal_minus_fl_leaves_unit_interval :
    InUnitCube [(0 : ℝ)] ∧ InUnitCube [(1 / 2 ^ 60 : ℝ)] ∧
      binary64 (1 / 2 ^ 60 : ℝ) = 1 / 2 ^ 60 ∧
      toroidal_minus_fl binary64 [(0 : ℝ)] [1 / 2 ^ 60] = [-(1 / 2 ^ 60)] ∧
      ¬ (0 ≤ (-(1 / 2 ^ 60) : ℝ)) ∧ (-(1 / 2 ^ 60) : ℝ) ≠ (0 - 1 / 2 ^ 60) + 1 := by
  refine ⟨(by intro x hx; simp only [List.mem_singleton] at hx; subst hx; norm_num), (by intro x hx; simp only [List.mem_singleton] at hx; subst hx; norm_num),
    (binary64_eval _ _ (-60) (-112) 4503599627370496 (by decide) (by norm_num) (Or.inl (by norm_num))
        ⟨by norm_num, by norm_num⟩ (by norm_num) (by norm_num)), ?_, by norm_num, by norm_num⟩
  rw [toroidal_minus_fl_singleton, toroidal_minus_axis_fl_tiny_negative]

/-- C16, refuted as stated, with the `double` operations and the `float` return of the
code: `[0]` and `[2^-200]` are distinct points of `[0,1)^1` whose coordinates are `double`
values, and `toroidal_norm` returns `0` for them. -/
theorem toroidal_norm_fl_zero_for_distinct_points :
    InUnitCube [(0 : ℝ)] ∧ InUnitCube [(1 / 2 ^ 200 : ℝ)] ∧
      binary64 (1 / 2 ^ 200 : ℝ) = 1 / 2 ^ 200 ∧
      toroidal_norm_fl binary64 binary32 Real.sqrt [(0 : ℝ)] [1 / 2 ^ 200] = 0 ∧
      [(0 : ℝ)] ≠ [1 / 2 ^ 200] := by
  refine ⟨(by intro x hx; simp only [List.mem_singleton] at hx; subst hx; norm_num), (by intro x hx; simp only [List.mem_singleton] at hx; subst hx; norm_num),
    (binary64_eval _ _ (-200) (-252) 4503599627370496 (by decide) (by norm_num) (Or.inl (by norm_num))
        ⟨by norm_num, by norm_num⟩ (by norm_num) (by norm_num)), toroidal_norm_fl_underflow, ?_⟩
  intro h
  have h0 : (0 : ℝ) = 1 / 2 ^ 200 := (List.cons.inj h).1
  norm_num at h0

/-- C6, refuted as stated, with the `double` operations and the `float` return of the
code: for the 1-D points `[0]` and `[201326591/2^28]` (`double` values of `[0,1)`),
`raw = -201326591/2^28` lies in `[-1, -1/2]` and `toroidal_minus` returns `[raw + 1]`, but
`toroidal_norm` returns `1/4`, which is not `raw + 1 = 67108865/2^28`. -/
theorem toroidal_norm_fl_differs_from_minus_on_wrap :
    InUnitCube [(0 : ℝ)] ∧ InUnitCube [((201326591 / 2 ^ 28) : ℝ)] ∧
      binary64 ((201326591 / 2 ^ 28) : ℝ) = (201326591 / 2 ^ 28) ∧
      (-1 ≤ (0 : ℝ) - (201326591 / 2 ^ 28) ∧ (0 : ℝ) - (201326591 / 2 ^ 28) ≤ -1 / 2) ∧
      toroidal_minus_fl binary64 [(0 : ℝ)] [(201326591 / 2 ^ 28)] = [(67108865 / 2 ^ 28)] ∧
      ((67108865 / 2 ^ 28) : ℝ) = (0 - (201326591 / 2 ^ 28)) + 1 ∧
      toroidal_norm_fl binary64 binary32 Real.sqrt [(0 : ℝ)] [(201326591 / 2 ^ 28)] = 1 / 4 ∧
      (1 / 4 : ℝ) ≠ (0 - (201326591 / 2 ^ 28)) + 1 := by
  refine ⟨(by intro x hx; simp only [List.mem_singleton] at hx; subst hx; norm_num), (by intro x hx; simp only [List.mem_singleton] at hx; subst hx; norm_num),
    (binary64_eval _ _ (-1) (-53) 6755399407501312 (by decide) (by norm_num) (Or.inl (by norm_num))
        ⟨by norm_num, by norm_num⟩ (by norm_num) (by norm_num)), ⟨by norm_num, by norm_num⟩, ?_, by norm_num, ?_, by norm_num⟩
  · rw [toroidal_minus_fl_singleton, toroidal_minus_axis_fl_wrap]
  · rw [toroidal_norm_fl_wrap]
    norm_num

/-- C15, refuted as stated, with the `double` operations and the `float` return of the
code: for the points `x = [0]`, `y = [2^-26]`, `z = [1/4 + 5*2^-28]` of `[0,1)^1` (`double`
values), `toroidal_norm(x, z) = 1/4 + 2^-25` exceeds
`toroidal_norm(x, y) + toroidal_norm(y, z) = 2^-26 + 1/4`. -/
theorem toroidal_norm_fl_triangle_fails :
    InUnitCube [(0 : ℝ)] ∧ InUnitCube [((1 / 2 ^ 26) : ℝ)] ∧ InUnitCube [((67108869 / 2 ^ 28) : ℝ)] ∧
      binary64 ((1 / 2 ^ 26) : ℝ) = (1 / 2 ^ 26) ∧ binary64 ((67108869 / 2 ^ 28) : ℝ) = (67108869 / 2 ^ 28) ∧
      ¬ (toroidal_norm_fl binary64 binary32 Real.sqrt [(0 : ℝ)] [(67108869 / 2 ^ 28)] ≤
        toroidal_norm_fl binary64 binary32 Real.sqrt [(0 : ℝ)] [(1 / 2 ^ 26)] +
          toroidal_norm_fl binary64 binary32 Real.sqrt [((1 / 2 ^ 26) : ℝ)] [(67108869 / 2 ^ 28)]) := by
  refine ⟨(by intro x hx; simp only [List.mem_singleton] at hx; subst hx; norm_num), (by intro x hx; simp only [List.mem_singleton] at hx; subst hx; norm_num), (by intro x hx; simp only [List.mem_singleton] at hx; subst hx; norm_num),
    (binary64_eval _ _ (-26) (-78) 4503599627370496 (by decide) (by norm_num) (Or.inl (by norm_num))
        ⟨by norm_num, by norm_num⟩ (by norm_num) (by norm_num)),
    (binary64_eval _ _ (-2) (-54) 4503599962914816 (by decide) (by norm_num) (Or.inl (by norm_num))
        ⟨by norm_num, by norm_num⟩ (by norm_num) (by norm_num)), ?_⟩
  rw [toroidal_norm_fl_far, toroidal_norm_fl_near, toroidal_norm_fl_mid]
  norm_num

/-- C18, refuted as stated, with the `double` operations and the `float` return of the
code: for `d = 5`, the origin and `(1/2, 1/2, 1/2, 1/2, 1/2)` are points of `[0,1)^5`,
`toroidal_norm` returns `9378749/2^23`, the `float` nearest to `sqrt (5/4)`, and its square
is larger than `5/4`. -/
theorem toroidal_norm_fl_exceeds_bound :
    InUnitCube [(0 : ℝ), 0, 0, 0, 0] ∧ InUnitCube [(1 / 2 : ℝ), 1 / 2, 1 / 2, 1 / 2, 1 / 2] ∧
      toroidal_norm_fl binary64 binary32 Real.sqrt [(0 : ℝ), 0, 0, 0, 0]
        [1 / 2, 1 / 2, 1 / 2, 1 / 2, 1 / 2] = (9378749 / 2 ^ 23) ∧
      ¬ (toroidal_norm_fl binary64 binary32 Real.sqrt [(0 : ℝ), 0, 0, 0, 0]
        [1 / 2, 1 / 2, 1 / 2, 1 / 2, 1 / 2] ^ 2 ≤
          (([(0 : ℝ), 0, 0, 0, 0].length : ℕ) : ℝ) / 4) := by
  refine ⟨?_, ?_, toroidal_norm_fl_five_halves, ?_⟩
  · intro x hx
    simp only [List.mem_cons, List.mem_singleton, List.not_mem_nil, or_false, or_self] at hx
    subst hx; norm_num
  · intro x hx
    simp only [List.mem_cons, List.mem_singleton, List.not_mem_nil, or_false, or_self] at hx
    subst hx; norm_num
  · rw [toroidal_norm_fl_five_halves]
    norm_num

/-- C11, refuted as stated, with the types of line 102: for `m = 10`, `k = 7` and the
jitter draw `j = 0`, `float(7)/10` is below `7/10` and the angle computed,
`2475983171044211/2^49`, is below the floor `2*PI*7/10` of bin 7 (and below `2*π*7/10` for the
true `π` as well), so it is not in bin 7. -/
theorem stratified_theta_fl_below_bin :
    stratified_theta_fl binary64 binary32 10 7 (0 : ℝ) = (2475983171044211 / 2 ^ 49) ∧
      ¬ InAngularBin 10 7 (stratified_theta_fl binary64 binary32 10 7 (0 : ℝ)) ∧
      stratified_theta_fl binary64 binary32 10 7 (0 : ℝ) < 2 * Real.pi * 7 / 10 := by
  refine ⟨stratified_theta_fl_seven_of_ten, ?_, ?_⟩
  · rw [stratified_theta_fl_seven_of_ten]
    rintro ⟨h, -⟩
    unfold PI at h
    norm_num at h
  · rw [stratified_theta_fl_seven_of_ten]
    have hpi := Real.pi_gt_d20
    norm_num at hpi ⊢
    linarith

/-- The vector built by the stratified branch for `k = 7`, `m = 10` when every uniform
draw is `0` (so `r = 0 < 0.7` and `j = 0`), from any engine state. -/
theorem chooseDirection_fl_seven_of_ten (s : Nat) :
    (chooseDirection_fl binary64 binary32 (exampleEngine (fun _ => (0 : ℝ)) (fun _ => 0))
        Real.cos Real.sin 2 10 7 [0, 0] s).1 =
      [Real.cos (2475983171044211 / 2 ^ 49), Real.sin (2475983171044211 / 2 ^ 49)] := by
  have h0 : (0 : ℝ) < binary64 (0.7 : ℝ) := binary64_threshold_pos
  simp only [chooseDirection_fl, exampleEngine, if_true, if_pos h0,
    stratified_theta_fl_seven_of_ten, List.set_cons_zero, List.set_cons_succ]

theorem chooseDirectionsLoop_fl_succ (d f : α → α) (normalize : List α → List α)
    (E : Engine σ α) (cos sin : α → α) (dim m : Nat) (directions : List (List α)) (s : σ)
    (k : Nat) :
    chooseDirectionsLoop_fl d f normalize E cos sin dim m directions s (k + 1) =
      ((chooseDirectionsLoop_fl d f normalize E cos sin dim m directions s k).1.set k
          (normalize (chooseDirection_fl d f E cos sin dim m k
            ((chooseDirectionsLoop_fl d f normalize E cos sin dim m directions s k).1.getD k [])
            (chooseDirectionsLoop_fl d f normalize E cos sin dim m directions s k).2).1),
        (chooseDirection_fl d f E cos sin dim m k
            ((chooseDirectionsLoop_fl d f normalize E cos sin dim m directions s k).1.getD k [])
            (chooseDirectionsLoop_fl d f normalize E cos sin dim m directions s k).2).2) := rfl

/-- Without rounding, and with the normalisation of the exact reading, the loop is the
loop of the exact reading. -/
theorem chooseDirectionsLoop_fl_exact (E : Engine σ α) (sqrt cos sin : α → α) (dim m : Nat)
    (directions : List (List α)) (s : σ) (n : Nat) :
    chooseDirectionsLoop_fl id id (VecX.normalize sqrt) E cos sin dim m directions s n =
      chooseDirectionsLoop E sqrt cos sin dim m directions s n := by
  induction n with
  | zero => rfl
  | succ k ih => rw [chooseDirectionsLoop_fl_succ, chooseDirectionsLoop_succ, ih]; rfl

theorem chooseDirectionsND_fl_exact (E : Engine σ α) (sqrt cos sin : α → α)
    (generatorND : Option σ) (directions : List (List α)) (m : Nat) (seed : Int) :
    chooseDirectionsND_fl id id (VecX.normalize sqrt) E cos sin generatorND directions m seed =
      chooseDirectionsND E sqrt cos sin generatorND directions m seed := by
  unfold chooseDirectionsND_fl chooseDirectionsND
  simp only [chooseDirectionsLoop_fl_exact]

theorem chooseDirectionsLoop_fl_length (d f : α → α) (normalize : List α → List α)
    (E : Engine σ α) (cos sin : α → α) (dim m : Nat) (directions : List (List α)) (s : σ)
    (n : Nat) :
    (chooseDirectionsLoop_fl d f normalize E cos sin dim m directions s n).1.length =
      directions.length := by
  induction n with
  | zero => rfl
  | succ k ih => rw [chooseDirectionsLoop_fl_succ, List.length_set, ih]

theorem chooseDirectionsLoop_fl_untouched (d f : α → α) (normalize : List α → List α)
    (E : Engine σ α) (cos sin : α → α) (dim m : Nat) (directions : List (List α)) (s : σ)
    (n i : Nat) (h : n ≤ i) :
    (chooseDirectionsLoop_fl d f normalize E cos sin dim m directions s n).1[i]? =
      directions[i]? := by
  induction n with
  | zero => rfl
  | succ k ih =>
    rw [chooseDirectionsLoop_fl_succ, List.getElem?_set_ne (by omega), ih (by omega)]

theorem chooseDirectionsLoop_fl_settled (d f : α → α) (normalize : List α → List α)
    (E : Engine σ α) (cos sin : α → α) (dim m : Nat) (directions : List (List α)) (s : σ)
    (n k : Nat) (h : k < n) :
    (chooseDirectionsLoop_fl d f normalize E cos sin dim m directions s n).1[k]? =
      (chooseDirectionsLoop_fl d f normalize E cos sin dim m directions s (k + 1)).1[k]? := by
  induction n with
  | zero => omega
  | succ j ih =>
    by_cases hj : k = j
    · subst hj; rfl
    · rw [chooseDirectionsLoop_fl_succ d f normalize E cos sin dim m directions s j,
        List.getElem?_set_ne (fun e => hj e.symm), ih (by omega)]

/-- What the loop leaves in entry `k`: the vector built by iteration `k` from the
caller's `directions[k]`, normalised. -/
theorem chooseDirectionsLoop_fl_written (d f : α → α) (normalize : List α → List α)
    (E : Engine σ α) (cos sin : α → α) (dim m : Nat) (directions : List (List α)) (s : σ)
    (n k : Nat) (h : k < n) (v : List α) (hv : directions[k]? = some v) :
    (chooseDirectionsLoop_fl d f normalize E cos sin dim m directions s n).1[k]? =
      some (normalize (chooseDirection_fl d f E cos sin dim m k v
        (chooseDirectionsLoop_fl d f normalize E cos sin dim m directions s k).2).1) := by
  have hk : k < directions.length := lt_length_of_getElem? hv
  have hget :
      (chooseDirectionsLoop_fl d f normalize E cos sin dim m directions s k).1.getD k [] = v := by
    rw [List.getD_eq_getElem?_getD,
      chooseDirectionsLoop_fl_untouched _ _ _ _ _ _ _ _ _ _ _ _ (le_refl k), hv]
    rfl
  rw [chooseDirectionsLoop_fl_settled _ _ _ _ _ _ _ _ _ _ _ _ h, chooseDirectionsLoop_fl_succ,
    List.getElem?_set_self (by rw [chooseDirectionsLoop_fl_length]; exact hk), hget]

/-- C3, refuted as stated, with the types of line 102: for `dim = 2`, `m = 10`, a table
of ten 2-D vectors and a random source whose uniform draws are all `0` (so for `k = 7`
the first draw is `r = 0 < 0.7` and the jitter draw is `j = 0`), the direction written at
index 7 is `(cos t, sin t)` for the angle `t = 2475983171044211/2^49`, which is not the
angle `((k + j)/m)*2*PI` of the claim, and its first component differs from
`cos (((k + j)/m)*2*PI)`. Here `cos`, `sin` and `normalize` are exact, so the only
roundings are those of the expression of line 102. -/
theorem chooseDirectionsND_fl_differs_from_policy :
    (chooseDirectionsND_fl binary64 binary32 (VecX.normalize Real.sqrt)
        (exampleEngine (fun _ => (0 : ℝ)) (fun _ => 0)) Real.cos Real.sin none
        (List.replicate 10 [0, 0]) 10 0).1[7]? =
        some [Real.cos (2475983171044211 / 2 ^ 49), Real.sin (2475983171044211 / 2 ^ 49)] ∧
      ((2475983171044211 / 2 ^ 49) : ℝ) ≠ (((7 : ℕ) : ℝ) + 0) / ((10 : ℕ) : ℝ) * (2 * PI) ∧
      Real.cos (2475983171044211 / 2 ^ 49) ≠ Real.cos ((((7 : ℕ) : ℝ) + 0) / ((10 : ℕ) : ℝ) * (2 * PI)) := by
  have hlt : ((2475983171044211 / 2 ^ 49) : ℝ) < (((7 : ℕ) : ℝ) + 0) / ((10 : ℕ) : ℝ) * (2 * PI) := by
    unfold PI
    norm_num
  refine ⟨?_, ne_of_lt hlt, ?_⟩
  · have hw := chooseDirectionsLoop_fl_written binary64 binary32 (VecX.normalize Real.sqrt)
      (exampleEngine (fun _ => (0 : ℝ)) (fun _ => 0)) Real.cos Real.sin 2 10
      (List.replicate 10 [0, 0]) 0 10 7 (by decide) [0, 0] rfl
    rw [chooseDirection_fl_seven_of_ten, normalize_cos_sin] at hw
    exact hw
  · apply ne_of_lt
    have hpi3 := Real.pi_gt_three
    have hpi315 := Real.pi_lt_d2
    have hx : (0 : ℝ) ≤ 2 * Real.pi - (((7 : ℕ) : ℝ) + 0) / ((10 : ℕ) : ℝ) * (2 * PI) := by
      unfold PI
      norm_num
      linarith
    have hy : 2 * Real.pi - ((2475983171044211 / 2 ^ 49) : ℝ) ≤ Real.pi := by
      norm_num
      linarith
    have h := Real.cos_lt_cos_of_nonneg_of_le_pi hx hy (by linarith)
    rwa [Real.cos_two_pi_sub, Real.cos_two_pi_sub] at h

end FloatingPoint

end SlicedOptim
